import Mathlib

/-!
Verification development for the minimax game-tree evaluator:
the tree builder (source: src/HWs/HW1/src/json_parser.py, function
parse_tree_from_dict together with class Node and class JSONTreeParserError)
and the minimax evaluator (source: src/HWs/HW1/src/mini_max.py, function
miniMax).  The Python code is shallowly embedded: JSON-decoded Python values
become the inductive type PyVal, the mutable object graph built by the parser
becomes a name-indexed store (object identity coincides with the unique node
name, since every node object is created exactly once under its key in the
nodes dict and children are resolved through that dict), and the in-place
mutation performed by miniMax becomes explicit store passing.  Exceptions
become an error sum type; Python recursion is modelled with a fuel parameter
(Python itself aborts deep recursion with RecursionError, so fuel exhaustion
maps to a real abort, not an artifact).
-/

/-- Values decoded from JSON as Python objects, restricted to the fragment
the program manipulates: None, arbitrary-precision integers, strings, lists
and string-keyed dicts (insertion-ordered association lists, as in Python). -/
inductive PyVal where
  | none : PyVal
  | int : Int → PyVal
  | str : String → PyVal
  | list : List PyVal → PyVal
  | dict : List (String × PyVal) → PyVal

mutual

/-- Structural equality of Python values (Python == on this fragment). -/
def pyBeq : PyVal → PyVal → Bool
  | .none, .none => true
  | .int a, .int b => a == b
  | .str a, .str b => a == b
  | .list a, .list b => pyBeqL a b
  | .dict a, .dict b => pyBeqD a b
  | _, _ => false

/-- Elementwise equality of Python lists. -/
def pyBeqL : List PyVal → List PyVal → Bool
  | [], [] => true
  | a :: as2, b :: bs2 => pyBeq a b && pyBeqL as2 bs2
  | _, _ => false

/-- Entrywise equality of dict representations. -/
def pyBeqD : List (String × PyVal) → List (String × PyVal) → Bool
  | [], [] => true
  | (k1, a) :: as2, (k2, b) :: bs2 => k1 == k2 && pyBeq a b && pyBeqD as2 bs2
  | _, _ => false

end

mutual

theorem pyBeq_iff : ∀ a b : PyVal, pyBeq a b = true ↔ a = b
  | .none, .none => by simp [pyBeq]
  | .none, .int _ | .none, .str _ | .none, .list _ | .none, .dict _ => by simp [pyBeq]
  | .int _, .none | .int _, .str _ | .int _, .list _ | .int _, .dict _ => by simp [pyBeq]
  | .int a, .int b => by simp [pyBeq]
  | .str _, .none | .str _, .int _ | .str _, .list _ | .str _, .dict _ => by simp [pyBeq]
  | .str a, .str b => by simp [pyBeq]
  | .list _, .none | .list _, .int _ | .list _, .str _ | .list _, .dict _ => by
      simp [pyBeq]
  | .list a, .list b => by simp [pyBeq, pyBeqL_iff a b]
  | .dict _, .none | .dict _, .int _ | .dict _, .str _ | .dict _, .list _ => by
      simp [pyBeq]
  | .dict a, .dict b => by simp [pyBeq, pyBeqD_iff a b]

theorem pyBeqL_iff : ∀ a b : List PyVal, pyBeqL a b = true ↔ a = b
  | [], [] => by simp [pyBeqL]
  | [], _ :: _ => by simp [pyBeqL]
  | _ :: _, [] => by simp [pyBeqL]
  | a :: as2, b :: bs2 => by
      simp [pyBeqL, pyBeq_iff a b, pyBeqL_iff as2 bs2]

theorem pyBeqD_iff : ∀ a b : List (String × PyVal), pyBeqD a b = true ↔ a = b
  | [], [] => by simp [pyBeqD]
  | [], _ :: _ => by simp [pyBeqD]
  | _ :: _, [] => by simp [pyBeqD]
  | (k1, a) :: as2, (k2, b) :: bs2 => by
      simp [pyBeqD, pyBeq_iff a b, pyBeqD_iff as2 bs2, and_assoc]

end

instance : DecidableEq PyVal := fun a b => decidable_of_iff _ (pyBeq_iff a b)

/-- Python str() of a value, as used by the f-string error messages.
Container rendering follows Python repr conventions on the fragment used. -/
def pyStr : PyVal → String
  | .none => "None"
  | .int n => toString n
  | .str s => s
  | .list _ => "[...]"
  | .dict _ => "\x7b...\x7d"

/-- Lookup in a Python dict represented as an insertion-ordered association
list (first binding wins; an actual dict has distinct keys). -/
def lookupKey {α : Type} : List (String × α) → String → Option α
  | [], _ => Option.none
  | (k2, v) :: rest, k => if k2 = k then some v else lookupKey rest k

/-- Embedding of class Node (json_parser.py).  The children list holds node
names: in the source it holds the child objects themselves, but every child
object is nodes[cname] for its unique name, so names are faithful object
references.  The parent back-reference likewise stores the parent name. -/
structure Node where
  name : String
  type : PyVal
  children : List String
  value : PyVal
  parent : Option String
deriving DecidableEq

/-- The object graph after construction: the nodes dict of the parser,
mapping each node name to its node, in insertion order. -/
abbrev Store : Type := List (String × Node)

/-- Method Node.is_leaf of the source. -/
def Node.is_leaf (nd : Node) : Bool := nd.type = PyVal.str "leaf"

/-- Exceptions the embedded code can raise.  The parser raises only the
single class JSONTreeParserError (json_parser.py line 60), carrying a
message; the other constructors model built-in Python exceptions reachable
only through code paths the parser itself has already excluded. -/
inductive PyErr where
  | jsonTreeParserError : String → PyErr
  | keyError : String → PyErr
  | attributeError : String → PyErr
  | typeError : String → PyErr
deriving DecidableEq

deriving instance DecidableEq for Except

/-- Exception class name of an error, the discriminator a Python caller can
branch on with except-clauses. -/
def PyErr.cls : PyErr → String
  | .jsonTreeParserError _ => "JSONTreeParserError"
  | .keyError _ => "KeyError"
  | .attributeError _ => "AttributeError"
  | .typeError _ => "TypeError"

/-- Body of the first parser pass for one (name, spec) item
(json_parser.py lines 128-145): create the node object in isolation. -/
def mkNodeE (name : String) (spec : PyVal) : Except PyErr Node :=
  match spec with
  | .dict fields =>
    match lookupKey fields "type" with
    | some ntype =>
      if ntype = .str "leaf" then
        match lookupKey fields "value" with
        | some v =>
          if (lookupKey fields "children").isSome then
            .error (.jsonTreeParserError
              s!"Leaf node \x27{name}\x27 must not have \x27children\x27 specified.")
          else
            .ok { name := name, type := .str "leaf", children := [],
                  value := v, parent := Option.none }
        | Option.none =>
          .error (.jsonTreeParserError s!"Leaf node \x27{name}\x27 missing \x27value\x27.")
      else
        if (lookupKey fields "children").isSome then
          .ok { name := name, type := ntype, children := [],
                value := .none, parent := Option.none }
        else
          .error (.jsonTreeParserError
            s!"Non-leaf node \x27{name}\x27 missing \x27children\x27.")
    | Option.none =>
      .error (.jsonTreeParserError
        s!"Node spec for \x27{name}\x27 must be a dict with a \x27type\x27.")
  | _ =>
    .error (.jsonTreeParserError
      s!"Node spec for \x27{name}\x27 must be a dict with a \x27type\x27.")

/-- First pass of parse_tree_from_dict (lines 125-145): create all node
objects without linking children, stopping at the first bad spec. -/
def phase1 : List (String × PyVal) → Except PyErr Store
  | [] => .ok []
  | (name, spec) :: rest =>
    match mkNodeE name spec with
    | .error e => .error e
    | .ok nd =>
      match phase1 rest with
      | .error e => .error e
      | .ok s => .ok ((name, nd) :: s)

/-- In-place field update of the node object stored under a name. -/
def updNode (s : Store) (k : String) (f : Node → Node) : Store :=
  s.map (fun p => if p.1 = k then (p.1, f p.2) else p)

/-- One execution of the loop body at json_parser.py lines 160-162: append
the child object to the parent and record the back-reference to the first
assigning parent. -/
def appendChild (s : Store) (pname cname : String) : Store :=
  let s1 := updNode s pname (fun nd => { nd with children := nd.children ++ [cname] })
  match lookupKey s1 cname with
  | some cnd =>
    if cnd.parent.isNone then
      updNode s1 cname (fun nd => { nd with parent := some pname })
    else s1
  | Option.none => s1

/-- Inner loop of the second pass (lines 156-162) over one declared
children list.  A list or dict element is unhashable, so the membership
test itself raises TypeError; any other element not naming a defined node
raises the dangling-child JSONTreeParserError. -/
def linkOne (pname : String) : Store → List PyVal → Except PyErr Store
  | s, [] => .ok s
  | s, c :: rest =>
    match c with
    | .list _ => .error (.typeError s!"unhashable child reference in \x27{pname}\x27")
    | .dict _ => .error (.typeError s!"unhashable child reference in \x27{pname}\x27")
    | .str cs =>
      if (lookupKey s cs).isSome then
        linkOne pname (appendChild s pname cs) rest
      else
        .error (.jsonTreeParserError
          s!"Child \x27{cs}\x27 referenced by \x27{pname}\x27 not defined in nodes.")
    | c2 =>
      .error (.jsonTreeParserError
        s!"Child \x27{pyStr c2}\x27 referenced by \x27{pname}\x27 not defined in nodes.")

/-- Body of the second pass for one (name, spec) item (lines 149-163):
skip leaves, fetch the declared children value (defaulting to an empty
list), insist it is a list, then link each declared child in order. -/
def linkNode (s : Store) (name : String) (spec : PyVal) : Except PyErr Store :=
  match lookupKey s name with
  | Option.none => .error (.keyError name)
  | some nd =>
    if nd.is_leaf then .ok s
    else
      match spec with
      | .dict fields =>
        match (lookupKey fields "children").getD (.list []) with
        | .list cs => linkOne name s cs
        | _ =>
          .error (.jsonTreeParserError
            s!"\x27children\x27 for node \x27{name}\x27 must be a list.")
      | _ => .error (.attributeError name)

/-- Second pass of parse_tree_from_dict (lines 147-163): link children. -/
def phase2 : Store → List (String × PyVal) → Except PyErr Store
  | s, [] => .ok s
  | s, (name, spec) :: rest =>
    match linkNode s name spec with
    | .error e => .error e
    | .ok s2 => phase2 s2 rest

/-- Validation sweep of parse_tree_from_dict (lines 170-176) over all node
objects in insertion order. -/
def validateNodes : Store → Except PyErr Unit
  | [] => .ok ()
  | (_, n) :: rest =>
    if n.type = PyVal.str "leaf" ∧ n.children ≠ [] then
      .error (.jsonTreeParserError s!"Leaf node \x27{n.name}\x27 has children defined.")
    else if (n.type = PyVal.str "max" ∨ n.type = PyVal.str "min") ∧ n.children = [] then
      .error (.jsonTreeParserError
        s!"Node \x27{n.name}\x27 of type \x27{pyStr n.type}\x27 must have children.")
    else validateNodes rest

/-- Embedding of parse_tree_from_dict (json_parser.py lines 91-179).  The
returned root Node object is identified by its name paired with the final
object graph.  An unhashable root value makes the membership test at line
165 raise TypeError; any other non-string root cannot equal a string key,
so it takes the root-not-found branch. -/
def parse_tree_from_dict (data : PyVal) : Except PyErr (String × Store) :=
  match data with
  | .dict top =>
    match lookupKey top "root", lookupKey top "nodes" with
    | some root_name, some nodesVal =>
      match nodesVal with
      | .dict nodes_def =>
        match phase1 nodes_def with
        | .error e => .error e
        | .ok s0 =>
          match phase2 s0 nodes_def with
          | .error e => .error e
          | .ok s =>
            match root_name with
            | .list _ => .error (.typeError "unhashable root name")
            | .dict _ => .error (.typeError "unhashable root name")
            | .str r =>
              if (lookupKey s r).isSome then
                match validateNodes s with
                | .error e => .error e
                | .ok _ => .ok (r, s)
              else
                .error (.jsonTreeParserError s!"Root \x27{r}\x27 not found among nodes.")
            | other =>
              .error (.jsonTreeParserError
                s!"Root \x27{pyStr other}\x27 not found among nodes.")
      | _ =>
        .error (.jsonTreeParserError
          "\x27nodes\x27 must be a dictionary mapping names to node specs.")
    | _, _ =>
      .error (.jsonTreeParserError "JSON must contain \x27root\x27 and \x27nodes\x27 keys.")
  | _ =>
    .error (.jsonTreeParserError "Input data must be a dictionary (parsed JSON).")

/-- Python comparison a > b as used by max(): defined between two ints and
between two strings; any comparison involving None or mixed numeric/string
operands raises TypeError, modelled as Option.none. -/
def pyGt (a b : PyVal) : Option Bool :=
  match a, b with
  | .int m, .int n => some (decide (n < m))
  | .str x, .str y => some (decide (y < x))
  | _, _ => Option.none

/-- Python comparison a < b as used by min(). -/
def pyLt (a b : PyVal) : Option Bool :=
  match a, b with
  | .int m, .int n => some (decide (m < n))
  | .str x, .str y => some (decide (x < y))
  | _, _ => Option.none

/-- Loop of the built-in max over the remaining items, keeping the first
extremal element on ties. -/
def pyMaxAux (acc : PyVal) : List PyVal → Option PyVal
  | [] => some acc
  | v :: vs =>
    match pyGt v acc with
    | some true => pyMaxAux v vs
    | some false => pyMaxAux acc vs
    | Option.none => Option.none

/-- Built-in max over a list; empty input raises ValueError. -/
def pyMax : List PyVal → Option PyVal
  | [] => Option.none
  | v :: vs => pyMaxAux v vs

/-- Loop of the built-in min over the remaining items. -/
def pyMinAux (acc : PyVal) : List PyVal → Option PyVal
  | [] => some acc
  | v :: vs =>
    match pyLt v acc with
    | some true => pyMinAux v vs
    | some false => pyMinAux acc vs
    | Option.none => Option.none

/-- Built-in min over a list; empty input raises ValueError. -/
def pyMin : List PyVal → Option PyVal
  | [] => Option.none
  | v :: vs => pyMinAux v vs

/-- List comprehension at mini_max.py line 17: evaluate the children left to
right with the given evaluator, threading the mutated store and propagating
the first exception. -/
def runChildren (f : Store → String → Store × Option PyVal) :
    Store → List String → Store × Option (List PyVal)
  | s, [] => (s, some [])
  | s, c :: cs =>
    match f s c with
    | (s1, Option.none) => (s1, Option.none)
    | (s1, some v) =>
      match runChildren f s1 cs with
      | (s2, Option.none) => (s2, Option.none)
      | (s2, some vs) => (s2, some (v :: vs))

/-- Body of miniMax (mini_max.py lines 4-26) with the recursive call
abstracted: a leaf returns its value without mutation; otherwise all
children are evaluated first, then the value field is set to the max or min
of their values and that value returned; an unknown type raises ValueError
after the children have been evaluated. -/
def mmBody (rec2 : Store → String → Store × Option PyVal) (s : Store)
    (name : String) : Store × Option PyVal :=
  match lookupKey s name with
  | Option.none => (s, Option.none)
  | some nd =>
    if nd.type = .str "leaf" then (s, some nd.value)
    else
      match runChildren rec2 s nd.children with
      | (s1, Option.none) => (s1, Option.none)
      | (s1, some vs) =>
        if nd.type = .str "max" then
          match pyMax vs with
          | Option.none => (s1, Option.none)
          | some v => (updNode s1 name (fun n2 => { n2 with value := v }), some v)
        else if nd.type = .str "min" then
          match pyMin vs with
          | Option.none => (s1, Option.none)
          | some v => (updNode s1 name (fun n2 => { n2 with value := v }), some v)
        else (s1, Option.none)

/-- Embedding of miniMax: fuel bounds the recursion depth (Python aborts
deep recursion with RecursionError, so exhausted fuel is an abort like any
other exception).  Defined through Nat.rec so concrete runs reduce
definitionally. -/
def miniMax (fuel : Nat) : Store → String → Store × Option PyVal :=
  Nat.rec (motive := fun _ => Store → String → Store × Option PyVal)
    (fun s _ => (s, Option.none)) (fun _ ih => mmBody ih) fuel

theorem miniMax_zero (s : Store) (n : String) : miniMax 0 s n = (s, Option.none) := rfl

theorem miniMax_succ (fuel : Nat) : miniMax (fuel + 1) = mmBody (miniMax fuel) := rfl

/-- Test for a Python int (the numeric leaf values the spec requires;
the source handles ints and floats alike and the claims exercise ints). -/
def isIntV : PyVal → Bool
  | .int _ => true
  | _ => false

/-- Names of the nodes dict, in insertion order. -/
def storeKeys (s : Store) : List String := s.map Prod.fst

/-- Values of the node objects a list of names refers to, in order; fails
if some name is not bound. -/
def childValues (s : Store) : List String → Option (List PyVal)
  | [] => some []
  | c :: rest =>
    match lookupKey s c with
    | some nd =>
      match childValues s rest with
      | some vs => some (nd.value :: vs)
      | Option.none => Option.none
    | Option.none => Option.none

/-- Conditions on one node object under which the spec calls the tree
validated: a leaf carries a numeric value; an internal node is of kind max
or min, declares at least one child, and every child name is bound. -/
def nodeOkB (s : Store) (nd : Node) : Bool :=
  if nd.type = PyVal.str "leaf" then isIntV nd.value && nd.children.isEmpty
  else
    (decide (nd.type = PyVal.str "max") || decide (nd.type = PyVal.str "min"))
      && !nd.children.isEmpty
      && nd.children.all (fun c => (lookupKey s c).isSome)

/-- Validated tree in the sense of the spec data-model invariants, checked
on the node object each name resolves to. -/
def validTree (s : Store) : Bool :=
  s.all (fun p =>
    match lookupKey s p.1 with
    | some nd => nodeOkB s nd
    | Option.none => true)

/-- Acyclicity witness: a rank function under which every child edge
strictly descends.  A store with such a witness has no reachable cycle. -/
def rankOk (s : Store) (rk : String → Nat) : Bool :=
  s.all (fun p =>
    match lookupKey s p.1 with
    | some nd => nd.children.all (fun c => decide (rk c < rk p.1))
    | Option.none => true)

/-- Reachability along child edges: the nodes of the subtree rooted at a
name (including the name itself). -/
inductive Reach (s : Store) : String → String → Prop
  | refl (n : String) : Reach s n n
  | step {n m p : String} {nd : Node} :
      lookupKey s n = some nd → m ∈ nd.children → Reach s m p → Reach s n p

/-- Description of concrete scenario 1 of the spec, in the key names the
source reads (the spec writes kind where the source reads type). -/
def scenario1 : PyVal := .dict [("root", .str "A"), ("nodes", .dict [
  ("A", .dict [("type", .str "max"), ("children", .list [.str "B", .str "C"])]),
  ("B", .dict [("type", .str "min"), ("children", .list [.str "D", .str "E"])]),
  ("C", .dict [("type", .str "leaf"), ("value", .int 3)]),
  ("D", .dict [("type", .str "leaf"), ("value", .int 5)]),
  ("E", .dict [("type", .str "leaf"), ("value", .int (-2))])])]

/-- Object graph the parser builds for scenario 1. -/
def scenario1Store : Store :=
  [("A", ⟨"A", .str "max", ["B", "C"], .none, Option.none⟩),
   ("B", ⟨"B", .str "min", ["D", "E"], .none, some "A"⟩),
   ("C", ⟨"C", .str "leaf", [], .int 3, some "A"⟩),
   ("D", ⟨"D", .str "leaf", [], .int 5, some "B"⟩),
   ("E", ⟨"E", .str "leaf", [], .int (-2), some "B"⟩)]

/-- Rank witness for scenario 1. -/
def scenario1Rank : String → Nat :=
  fun n => if n = "A" then 2 else if n = "B" then 1 else 0

/-- Description with a node of unrecognized kind foo that declares
children, and a variant that declares none. -/
def fooDesc : PyVal := .dict [("root", .str "R"), ("nodes", .dict [
  ("R", .dict [("type", .str "foo"), ("children", .list [.str "L"])]),
  ("L", .dict [("type", .str "leaf"), ("value", .int 1)])])]

/-- Object graph built for fooDesc: the foo node is constructed. -/
def fooStore : Store :=
  [("R", ⟨"R", .str "foo", ["L"], .none, Option.none⟩),
   ("L", ⟨"L", .str "leaf", [], .int 1, some "R"⟩)]

/-- Unknown-kind node spec without a children entry. -/
def fooNoKidsDesc : PyVal := .dict [("root", .str "R"), ("nodes", .dict [
  ("R", .dict [("type", .str "foo")])])]

/-- Claim C3: the claim states that any description containing a node spec
of kind outside leaf/max/min fails construction with a distinct
UnknownDiscriminant error.  Counterexample: the description fooDesc carries
kind foo, yet parse_tree_from_dict accepts it and builds the foo node. -/
theorem unknownKindAccepted :
    parse_tree_from_dict fooDesc = .ok ("R", fooStore) ∧
    (lookupKey fooStore "R").map Node.type = some (.str "foo") := by decide

/-- Claim C3 amended: an unrecognized kind is treated as an internal node;
if the spec declares children the builder accepts it (there is no
UnknownDiscriminant error) and the unknown kind reaches evaluation, where
miniMax fails fast after evaluating the children; if it declares no
children, construction fails, but with the generic non-leaf-missing-children
JSONTreeParserError. -/
theorem unknownKindReachesEvaluator :
    parse_tree_from_dict fooDesc = .ok ("R", fooStore) ∧
    miniMax 10 fooStore "R" = (fooStore, Option.none) ∧
    parse_tree_from_dict fooNoKidsDesc =
      .error (.jsonTreeParserError "Non-leaf node \x27R\x27 missing \x27children\x27.") := by
  decide

/-- Description whose single max node lists itself as a child. -/
def cycDesc : PyVal := .dict [("root", .str "A"), ("nodes", .dict [
  ("A", .dict [("type", .str "max"), ("children", .list [.str "A"])])])]

/-- Object graph built for cycDesc: a genuine cycle, the node is its own
child and its own parent. -/
def cycStore : Store :=
  [("A", ⟨"A", .str "max", ["A"], .none, some "A"⟩)]

/-- Description in which leaf L is listed as a child of both B and C. -/
def shareDesc : PyVal := .dict [("root", .str "A"), ("nodes", .dict [
  ("A", .dict [("type", .str "max"), ("children", .list [.str "B", .str "C"])]),
  ("B", .dict [("type", .str "max"), ("children", .list [.str "L"])]),
  ("C", .dict [("type", .str "max"), ("children", .list [.str "L"])]),
  ("L", .dict [("type", .str "leaf"), ("value", .int 1)])])]

/-- Object graph built for shareDesc: L is owned twice; the back-reference
records only the first-assigning parent B. -/
def shareStore : Store :=
  [("A", ⟨"A", .str "max", ["B", "C"], .none, Option.none⟩),
   ("B", ⟨"B", .str "max", ["L"], .none, some "A"⟩),
   ("C", ⟨"C", .str "max", ["L"], .none, some "A"⟩),
   ("L", ⟨"L", .str "leaf", [], .int 1, some "B"⟩)]

/-- Claim C4: the claim states that a description whose children lists form
a cycle is fatal to construction.  Counterexample: the self-loop description
cycDesc is accepted, and the constructed node is its own child. -/
theorem cyclicDescriptionAccepted :
    parse_tree_from_dict cycDesc = .ok ("A", cycStore) ∧
    (lookupKey cycStore "A").map Node.children = some ["A"] := by decide

/-- Claim C4 amended: parse_tree_from_dict performs no sharing or cycle
check.  A description sharing one child between two parents and a cyclic
description both construct successfully, children linked exactly as
declared, and the back-reference of a shared child names only the
first-assigning parent. -/
theorem sharingAndCyclesUnchecked :
    parse_tree_from_dict shareDesc = .ok ("A", shareStore) ∧
    (lookupKey shareStore "B").map Node.children = some ["L"] ∧
    (lookupKey shareStore "C").map Node.children = some ["L"] ∧
    (lookupKey shareStore "L").map Node.parent = some (some "B") ∧
    parse_tree_from_dict cycDesc = .ok ("A", cycStore) := by decide

/-- Description whose max node also carries a predefined value entry. -/
def valDesc : PyVal := .dict [("root", .str "A"), ("nodes", .dict [
  ("A", .dict [("type", .str "max"), ("children", .list [.str "L"]),
               ("value", .int 7)]),
  ("L", .dict [("type", .str "leaf"), ("value", .int 1)])])]

/-- Object graph built for valDesc: the internal value entry left no trace. -/
def valStore : Store :=
  [("A", ⟨"A", .str "max", ["L"], .none, Option.none⟩),
   ("L", ⟨"L", .str "leaf", [], .int 1, some "A"⟩)]

/-- Claim C7: the claim states that a description whose max or min node
spec carries a predefined value entry is rejected.  Counterexample: valDesc
declares value 7 on its max node and construction succeeds. -/
theorem internalValueAccepted :
    parse_tree_from_dict valDesc = .ok ("A", valStore) := by decide

/-- Claim C7 amended: a predefined value entry on a max/min spec is
silently ignored rather than rejected: construction succeeds and the
internal node starts with value None, the declared 7 dropped. -/
theorem internalValueIgnored :
    parse_tree_from_dict valDesc = .ok ("A", valStore) ∧
    (lookupKey valStore "A").map Node.value = some PyVal.none := by decide

/-- Shorthand for a description with a string root and given node specs. -/
def mkDesc (r : String) (nodes : List (String × PyVal)) : PyVal :=
  .dict [("root", .str r), ("nodes", .dict nodes)]

/-- Malformed top-level shape: the nodes key is missing. -/
def errTopDesc : PyVal := .dict [("root", .str "A")]

/-- Node spec with no type discriminant. -/
def errNoTypeDesc : PyVal := mkDesc "A" [("A", .dict [])]

/-- Leaf spec missing its value. -/
def errLeafValDesc : PyVal := mkDesc "A" [("A", .dict [("type", .str "leaf")])]

/-- Leaf spec that declares children. -/
def errLeafKidsDesc : PyVal := mkDesc "A"
  [("A", .dict [("type", .str "leaf"), ("value", .int 1), ("children", .list [])])]

/-- Internal spec missing its children list. -/
def errNoKidsDesc : PyVal := mkDesc "A" [("A", .dict [("type", .str "max")])]

/-- Internal spec declaring an empty children list. -/
def errEmptyKidsDesc : PyVal :=
  mkDesc "A" [("A", .dict [("type", .str "max"), ("children", .list [])])]

/-- Children list naming an undefined node. -/
def errDanglingDesc : PyVal :=
  mkDesc "A" [("A", .dict [("type", .str "max"), ("children", .list [.str "X"])])]

/-- Declared root absent from the nodes mapping. -/
def errRootDesc : PyVal :=
  mkDesc "Z" [("A", .dict [("type", .str "leaf"), ("value", .int 1)])]

/-- Claim C8: the claim states that each builder error condition produces a
distinct error kind a caller can branch on.  Counterexample: two different
conditions (malformed top-level shape, leaf missing its value) both raise
the one class JSONTreeParserError, so branching on the exception kind
cannot separate them. -/
theorem errorKindsCollapsed :
    parse_tree_from_dict errTopDesc =
      .error (.jsonTreeParserError "JSON must contain \x27root\x27 and \x27nodes\x27 keys.") ∧
    parse_tree_from_dict errLeafValDesc =
      .error (.jsonTreeParserError "Leaf node \x27A\x27 missing \x27value\x27.") ∧
    PyErr.cls (.jsonTreeParserError "JSON must contain \x27root\x27 and \x27nodes\x27 keys.") =
      PyErr.cls (.jsonTreeParserError "Leaf node \x27A\x27 missing \x27value\x27.") := by
  decide

/-- Claim C8 amended: every listed error condition raises the single
exception class JSONTreeParserError; the conditions are distinguishable
only by their message texts, which are pairwise distinct (the
missing-children and empty-children variants even getting different
messages). -/
theorem errorMessagesDistinguishOnly :
    parse_tree_from_dict errTopDesc =
      .error (.jsonTreeParserError "JSON must contain \x27root\x27 and \x27nodes\x27 keys.") ∧
    parse_tree_from_dict errNoTypeDesc =
      .error (.jsonTreeParserError "Node spec for \x27A\x27 must be a dict with a \x27type\x27.") ∧
    parse_tree_from_dict errLeafValDesc =
      .error (.jsonTreeParserError "Leaf node \x27A\x27 missing \x27value\x27.") ∧
    parse_tree_from_dict errLeafKidsDesc =
      .error (.jsonTreeParserError "Leaf node \x27A\x27 must not have \x27children\x27 specified.") ∧
    parse_tree_from_dict errNoKidsDesc =
      .error (.jsonTreeParserError "Non-leaf node \x27A\x27 missing \x27children\x27.") ∧
    parse_tree_from_dict errEmptyKidsDesc =
      .error (.jsonTreeParserError "Node \x27A\x27 of type \x27max\x27 must have children.") ∧
    parse_tree_from_dict errDanglingDesc =
      .error (.jsonTreeParserError "Child \x27X\x27 referenced by \x27A\x27 not defined in nodes.") ∧
    parse_tree_from_dict errRootDesc =
      .error (.jsonTreeParserError "Root \x27Z\x27 not found among nodes.") ∧
    ([ "JSON must contain \x27root\x27 and \x27nodes\x27 keys.",
       "Node spec for \x27A\x27 must be a dict with a \x27type\x27.",
       "Leaf node \x27A\x27 missing \x27value\x27.",
       "Leaf node \x27A\x27 must not have \x27children\x27 specified.",
       "Non-leaf node \x27A\x27 missing \x27children\x27.",
       "Node \x27A\x27 of type \x27max\x27 must have children.",
       "Child \x27X\x27 referenced by \x27A\x27 not defined in nodes.",
       "Root \x27Z\x27 not found among nodes." ] : List String).Nodup :=
  ⟨by decide, by decide, by decide, by decide, by decide, by decide, by decide,
   by decide, by decide⟩

/-- Leaf whose value entry is a string, and one whose value is JSON null
(decoded to Python None). -/
def strLeafDesc : PyVal :=
  mkDesc "A" [("A", .dict [("type", .str "leaf"), ("value", .str "oops")])]

/-- Leaf description with a null value entry. -/
def nullLeafDesc : PyVal :=
  mkDesc "A" [("A", .dict [("type", .str "leaf"), ("value", PyVal.none)])]

/-- Claim C10: the builder checks only the presence of the value key on a
leaf spec, not that the value is a number: a leaf whose value is the string
oops, or null, is accepted, and the constructed leaf carries that
non-numeric value. -/
theorem nonNumericLeafAccepted :
    parse_tree_from_dict strLeafDesc =
      .ok ("A", [("A", ⟨"A", .str "leaf", [], .str "oops", Option.none⟩)]) ∧
    isIntV (.str "oops") = false ∧
    parse_tree_from_dict nullLeafDesc =
      .ok ("A", [("A", ⟨"A", .str "leaf", [], PyVal.none, Option.none⟩)]) ∧
    isIntV PyVal.none = false := by
  decide

/-- Statement that a store evolved from s only by writing the value field
of max/min nodes at names satisfying P: every name is either untouched or
holds the same node with only its value changed, and then only at an
internal max/min node allowed by P. -/
def writesWithin (s : Store) (P : String → Prop) (s2 : Store) : Prop :=
  storeKeys s2 = storeKeys s ∧
  ∀ m, lookupKey s2 m = lookupKey s m ∨
    ∃ nd nd2, lookupKey s m = some nd ∧ lookupKey s2 m = some nd2 ∧
      (nd.type = PyVal.str "max" ∨ nd.type = PyVal.str "min") ∧
      nd2 = { nd with value := nd2.value } ∧ P m

theorem updNode_cons {k2 : String} {nd : Node} {rest : Store} {k : String}
    {f : Node → Node} :
    updNode ((k2, nd) :: rest) k f =
      (if k2 = k then (k2, f nd) else (k2, nd)) :: updNode rest k f := by
  rfl

theorem lookupKey_updNode {s : Store} {k m : String} {f : Node → Node} :
    lookupKey (updNode s k f) m =
      if k = m then (lookupKey s m).map f else lookupKey s m := by
  induction s with
  | nil => simp [updNode, lookupKey]
  | cons p rest ih =>
    obtain ⟨k2, nd⟩ := p
    by_cases h1 : k2 = k
    · subst h1
      have hcons : updNode ((k2, nd) :: rest) k2 f = (k2, f nd) :: updNode rest k2 f := by
        rw [updNode_cons]; simp
      rw [hcons]
      by_cases h2 : k2 = m
      · subst h2
        simp [lookupKey]
      · simp [lookupKey, h2, ih]
    · have hcons : updNode ((k2, nd) :: rest) k f = (k2, nd) :: updNode rest k f := by
        rw [updNode_cons]; simp [h1]
      rw [hcons]
      by_cases h2 : k2 = m
      · subst h2
        have hkm : ¬ k = k2 := fun hh => h1 hh.symm
        simp [lookupKey, hkm]
      · simp [lookupKey, h2, ih]

theorem storeKeys_updNode {s : Store} {k : String} {f : Node → Node} :
    storeKeys (updNode s k f) = storeKeys s := by
  induction s with
  | nil => rfl
  | cons p rest ih =>
    obtain ⟨k2, nd⟩ := p
    rw [updNode_cons]
    simp only [storeKeys, List.map_cons] at ih ⊢
    by_cases h : k2 = k <;> simp [h, ih]

theorem lookupKey_some_mem {α : Type} {s : List (String × α)} {k : String} {v : α} :
    lookupKey s k = some v → (k, v) ∈ s := by
  induction s with
  | nil => intro h; cases h
  | cons p rest ih =>
    obtain ⟨k2, v2⟩ := p
    by_cases h : k2 = k
    · subst h; intro hl
      simp [lookupKey] at hl
      simp [hl]
    · intro hl
      simp [lookupKey, h] at hl
      simpa using Or.inr (ih hl)

theorem writesWithin_refl (s : Store) (P : String → Prop) : writesWithin s P s :=
  ⟨rfl, fun _ => Or.inl rfl⟩

theorem writesWithin_mono {s s2 : Store} {P Q : String → Prop}
    (hpq : ∀ m, P m → Q m) (h : writesWithin s P s2) : writesWithin s Q s2 := by
  refine ⟨h.1, fun m => ?_⟩
  rcases h.2 m with h1 | ⟨nd, nd2, h1, h2, h3, h4, h5⟩
  · exact Or.inl h1
  · exact Or.inr ⟨nd, nd2, h1, h2, h3, h4, hpq m h5⟩

theorem writesWithin_trans {s s2 s3 : Store} {P Q : String → Prop}
    (h12 : writesWithin s P s2) (h23 : writesWithin s2 Q s3) :
    writesWithin s (fun m => P m ∨ Q m) s3 := by
  refine ⟨h23.1.trans h12.1, fun m => ?_⟩
  rcases h12.2 m with e1 | ⟨nd, nd2, f1, f2, f3, f4, f5⟩
  · rcases h23.2 m with e2 | ⟨nd2, nd3, g1, g2, g3, g4, g5⟩
    · exact Or.inl (e2.trans e1)
    · rw [e1] at g1
      exact Or.inr ⟨nd2, nd3, g1, g2, g3, g4, Or.inr g5⟩
  · rcases h23.2 m with e2 | ⟨nd2b, nd3, g1, g2, g3, g4, g5⟩
    · rw [e2, f2]
      exact Or.inr ⟨nd, nd2, f1, rfl, f3, f4, Or.inl f5⟩
    · rw [f2] at g1
      cases g1
      refine Or.inr ⟨nd, nd3, f1, g2, f3, ?_, Or.inl f5⟩
      rw [f4] at g4
      exact g4

theorem writesWithin_type {s s2 : Store} {P : String → Prop}
    (h : writesWithin s P s2) (m : String) :
    (lookupKey s2 m).map Node.type = (lookupKey s m).map Node.type := by
  rcases h.2 m with h1 | ⟨nd, nd2, h1, h2, _, h4, _⟩
  · rw [h1]
  · rw [h1, h2, h4]; simp

theorem writesWithin_children {s s2 : Store} {P : String → Prop}
    (h : writesWithin s P s2) (m : String) :
    (lookupKey s2 m).map Node.children = (lookupKey s m).map Node.children := by
  rcases h.2 m with h1 | ⟨nd, nd2, h1, h2, _, h4, _⟩
  · rw [h1]
  · rw [h1, h2, h4]; simp

theorem writesWithin_leaf_value {s s2 : Store} {P : String → Prop}
    (h : writesWithin s P s2) {m : String} {nd nd2 : Node}
    (h1 : lookupKey s m = some nd) (h2 : lookupKey s2 m = some nd2)
    (hleaf : nd.type = PyVal.str "leaf") : nd2.value = nd.value := by
  rcases h.2 m with e1 | ⟨nda, nd2a, f1, f2, f3, _, _⟩
  · rw [e1, h1] at h2; cases h2; rfl
  · rw [h1] at f1; cases f1
    rcases f3 with f3 | f3 <;> (rw [hleaf] at f3; exact absurd f3 (by decide))

theorem reach_congr {s s2 : Store}
    (h : ∀ m, (lookupKey s2 m).map Node.children = (lookupKey s m).map Node.children)
    {a b : String} : Reach s2 a b → Reach s a b := by
  intro hr
  induction hr with
  | refl n => exact Reach.refl n
  | @step n m p nd h1 h2 hr ih =>
    have hc := h n
    rw [h1] at hc
    cases hlk : lookupKey s n with
    | none => rw [hlk] at hc; cases hc
    | some nd2 =>
      rw [hlk] at hc
      simp at hc
      exact Reach.step hlk (by rw [Eq.symm hc]; exact h2) ih

theorem runChildren_frame (f : Store → String → Store × Option PyVal)
    (hf : ∀ s n s2 r, f s n = (s2, r) → writesWithin s (Reach s n) s2) :
    ∀ (cs : List String) (s s2 : Store) (r : Option (List PyVal)),
      runChildren f s cs = (s2, r) →
      writesWithin s (fun m => ∃ c, c ∈ cs ∧ Reach s c m) s2 := by
  intro cs
  induction cs with
  | nil =>
    intro s s2 r h
    simp only [runChildren, Prod.mk.injEq] at h
    obtain ⟨h1, h2⟩ := h
    subst h1
    exact writesWithin_refl _ _
  | cons c cs ih =>
    intro s s2 r h
    cases hc : f s c with
    | mk s1 r1 =>
      have hw1 := hf s c s1 r1 hc
      have hw1c : writesWithin s (fun m => ∃ c2, c2 ∈ c :: cs ∧ Reach s c2 m) s1 := by
        refine writesWithin_mono ?_ hw1
        intro m hm
        exact ⟨c, by simp, hm⟩
      cases r1 with
      | none =>
        simp only [runChildren, hc, Prod.mk.injEq] at h
        obtain ⟨h1, h2⟩ := h
        subst h1
        exact hw1c
      | some v =>
        cases hrc : runChildren f s1 cs with
        | mk s2b r2 =>
          have hw2 := ih s1 s2b r2 hrc
          have hch := fun m => writesWithin_children hw1 m
          have hw2b : writesWithin s1 (fun m => ∃ c2, c2 ∈ cs ∧ Reach s c2 m) s2b := by
            refine writesWithin_mono ?_ hw2
            intro m hm
            obtain ⟨c2, hc2, hr⟩ := hm
            exact ⟨c2, hc2, reach_congr hch hr⟩
          have htr := writesWithin_trans hw1c hw2b
          have hfin : writesWithin s (fun m => ∃ c2, c2 ∈ c :: cs ∧ Reach s c2 m) s2b := by
            refine writesWithin_mono ?_ htr
            intro m hm
            rcases hm with hm | ⟨c2, hc2, hr⟩
            · exact hm
            · exact ⟨c2, by simp [hc2], hr⟩
          cases r2 with
          | none =>
            simp only [runChildren, hc, hrc, Prod.mk.injEq] at h
            obtain ⟨h1, h2⟩ := h
            subst h1
            exact hfin
          | some vs =>
            simp only [runChildren, hc, hrc, Prod.mk.injEq] at h
            obtain ⟨h1, h2⟩ := h
            subst h1
            exact hfin

theorem miniMax_frame :
    ∀ (fuel : Nat) (s : Store) (n : String) (s2 : Store) (r : Option PyVal),
      miniMax fuel s n = (s2, r) → writesWithin s (Reach s n) s2 := by
  intro fuel
  induction fuel with
  | zero =>
    intro s n s2 r h
    rw [miniMax_zero] at h
    injection h with h1 h2
    subst h1
    exact writesWithin_refl _ _
  | succ fuel ih =>
    intro s n s2 r h
    rw [miniMax_succ] at h
    cases hlk : lookupKey s n with
    | none =>
      simp only [mmBody, hlk, Prod.mk.injEq] at h
      obtain ⟨h1, h2⟩ := h
      subst h1
      exact writesWithin_refl _ _
    | some nd =>
      by_cases hleaf : nd.type = PyVal.str "leaf"
      · simp only [mmBody, hlk, if_pos hleaf, Prod.mk.injEq] at h
        obtain ⟨h1, h2⟩ := h
        subst h1
        exact writesWithin_refl _ _
      · cases hrc : runChildren (miniMax fuel) s nd.children with
        | mk s1 res =>
          have hw1 := runChildren_frame (miniMax fuel) ih nd.children s s1 res hrc
          have hsub : writesWithin s (Reach s n) s1 := by
            refine writesWithin_mono ?_ hw1
            intro m hm
            obtain ⟨c, hcmem, hr⟩ := hm
            exact Reach.step hlk hcmem hr
          have hty := writesWithin_type hsub n
          rw [hlk] at hty
          have hnd1 : ∃ nd1, lookupKey s1 n = some nd1 ∧ nd1.type = nd.type := by
            cases hlk1 : lookupKey s1 n with
            | none => rw [hlk1] at hty; cases hty
            | some nd1 =>
              rw [hlk1] at hty
              simp at hty
              exact ⟨nd1, rfl, hty⟩
          obtain ⟨nd1, hlk1, hty1⟩ := hnd1
          have hupd : ∀ v : PyVal, (nd.type = PyVal.str "max" ∨ nd.type = PyVal.str "min") →
              writesWithin s (Reach s n)
                (updNode s1 n (fun n2 => { n2 with value := v })) := by
            intro v hmm2
            have hstep : writesWithin s1 (fun m => m = n)
                (updNode s1 n (fun n2 => { n2 with value := v })) := by
              refine ⟨storeKeys_updNode, ?_⟩
              intro m
              rw [lookupKey_updNode]
              by_cases hm : n = m
              · subst hm
                rw [if_pos rfl, hlk1]
                refine Or.inr ⟨nd1, { nd1 with value := v }, rfl, rfl, ?_, by simp, rfl⟩
                rw [hty1]
                exact hmm2
              · rw [if_neg hm]
                exact Or.inl rfl
            have htr := writesWithin_trans hsub hstep
            refine writesWithin_mono ?_ htr
            intro m hm
            rcases hm with hm | hm
            · exact hm
            · subst hm
              exact Reach.refl m
          cases res with
          | none =>
            simp only [mmBody, hlk, hleaf, if_false, hrc, Prod.mk.injEq, if_neg hleaf] at h
            obtain ⟨h1, h2⟩ := h
            subst h1
            exact hsub
          | some vs =>
            by_cases hmax : nd.type = PyVal.str "max"
            · cases hpm : pyMax vs with
              | none =>
                simp only [mmBody, hlk, if_neg hleaf, hrc, if_pos hmax, hpm,
                  Prod.mk.injEq] at h
                obtain ⟨h1, h2⟩ := h
                subst h1
                exact hsub
              | some v =>
                simp only [mmBody, hlk, if_neg hleaf, hrc, if_pos hmax, hpm,
                  Prod.mk.injEq] at h
                obtain ⟨h1, h2⟩ := h
                subst h1
                exact hupd v (Or.inl hmax)
            · by_cases hmin : nd.type = PyVal.str "min"
              · cases hpm : pyMin vs with
                | none =>
                  simp only [mmBody, hlk, if_neg hleaf, hrc, if_neg hmax, if_pos hmin,
                    hpm, Prod.mk.injEq] at h
                  obtain ⟨h1, h2⟩ := h
                  subst h1
                  exact hsub
                | some v =>
                  simp only [mmBody, hlk, if_neg hleaf, hrc, if_neg hmax, if_pos hmin,
                    hpm, Prod.mk.injEq] at h
                  obtain ⟨h1, h2⟩ := h
                  subst h1
                  exact hupd v (Or.inr hmin)
              · simp only [mmBody, hlk, if_neg hleaf, hrc, if_neg hmax, if_neg hmin,
                  Prod.mk.injEq] at h
                obtain ⟨h1, h2⟩ := h
                subst h1
                exact hsub

/-- Claim C5: for every node, miniMax writes only the value field of
internal max/min nodes in the subtree reachable from that node — it never
changes the set of names, node structure, ids, children lists or parent
links (writesWithin), and it never mutates a leaf value. -/
theorem evaluatorWritesOnlyInternalValues (fuel : Nat) (s : Store) (n : String)
    (s2 : Store) (r : Option PyVal) (h : miniMax fuel s n = (s2, r)) :
    writesWithin s (Reach s n) s2 ∧
    ∀ m nd nd2, lookupKey s m = some nd → lookupKey s2 m = some nd2 →
      nd.type = PyVal.str "leaf" → nd2.value = nd.value := by
  have hw := miniMax_frame fuel s n s2 r h
  exact ⟨hw, fun m nd nd2 h1 h2 h3 => writesWithin_leaf_value hw h1 h2 h3⟩

/-- Store after evaluating scenario 1: both internal values populated,
everything else untouched. -/
def scenario1Post : Store :=
  [("A", ⟨"A", .str "max", ["B", "C"], .int 3, Option.none⟩),
   ("B", ⟨"B", .str "min", ["D", "E"], .int (-2), some "A"⟩),
   ("C", ⟨"C", .str "leaf", [], .int 3, some "A"⟩),
   ("D", ⟨"D", .str "leaf", [], .int 5, some "B"⟩),
   ("E", ⟨"E", .str "leaf", [], .int (-2), some "B"⟩)]

/-- Witness for claim C5 on scenario 1. -/
theorem evaluatorWritesOnlyInternalValues_witness :
    miniMax 3 scenario1Store "A" = (scenario1Post, some (.int 3)) ∧
    writesWithin scenario1Store (Reach scenario1Store "A") scenario1Post ∧
    ∀ m nd nd2, lookupKey scenario1Store m = some nd →
      lookupKey scenario1Post m = some nd2 →
      nd.type = PyVal.str "leaf" → nd2.value = nd.value := by
  have h : miniMax 3 scenario1Store "A" = (scenario1Post, some (.int 3)) := by decide
  have h2 := evaluatorWritesOnlyInternalValues 3 scenario1Store "A" scenario1Post
    (some (.int 3)) h
  exact ⟨h, h2.1, h2.2⟩

theorem lookupKey_isSome_of_mem {α : Type} {s : List (String × α)} {k : String}
    {v : α} (h : (k, v) ∈ s) : (lookupKey s k).isSome := by
  induction s with
  | nil => cases h
  | cons p rest ih =>
    obtain ⟨k2, v2⟩ := p
    by_cases hk : k2 = k
    · simp [lookupKey, hk]
    · rcases List.mem_cons.mp h with h | h
      · cases h; exact absurd rfl hk
      · simp [lookupKey, hk]
        exact ih h

theorem rankOk_lookup {s : Store} {rk : String → Nat} {k : String} {nd : Node}
    (hr : rankOk s rk = true) (hlk : lookupKey s k = some nd) :
    ∀ c ∈ nd.children, rk c < rk k := by
  have hmem := lookupKey_some_mem hlk
  have hall := List.all_eq_true.mp hr (k, nd) hmem
  simp only [hlk] at hall
  intro c hc
  have := List.all_eq_true.mp hall c hc
  simpa using this

theorem rankOk_of_lookup {s : Store} {rk : String → Nat}
    (h : ∀ k nd, lookupKey s k = some nd → ∀ c ∈ nd.children, rk c < rk k) :
    rankOk s rk = true := by
  apply List.all_eq_true.mpr
  intro p hp
  cases hlk : lookupKey s p.1 with
  | none => simp
  | some nd =>
    simp only []
    apply List.all_eq_true.mpr
    intro c hc
    simpa using h p.1 nd hlk c hc

theorem reach_rank {s : Store} {rk : String → Nat} (hr : rankOk s rk = true)
    {a b : String} (h : Reach s a b) : rk b ≤ rk a := by
  induction h with
  | refl n => exact le_refl _
  | @step n m p nd h1 h2 hr2 ih =>
    have := rankOk_lookup hr h1 m h2
    omega

theorem writesWithin_isSome {s s2 : Store} {P : String → Prop}
    (hw : writesWithin s P s2) (m : String) :
    (lookupKey s2 m).isSome = (lookupKey s m).isSome := by
  rcases hw.2 m with h1 | ⟨nd, nd2, h1, h2, _, _, _⟩
  · rw [h1]
  · rw [h1, h2]; rfl

theorem rankOk_writesWithin {s s2 : Store} {P : String → Prop} {rk : String → Nat}
    (hw : writesWithin s P s2) (hr : rankOk s rk = true) : rankOk s2 rk = true := by
  apply rankOk_of_lookup
  intro k nd2 hlk2 c hc
  have hch := writesWithin_children hw k
  rw [hlk2] at hch
  cases hlk : lookupKey s k with
  | none => rw [hlk] at hch; cases hch
  | some nd =>
    rw [hlk] at hch
    simp at hch
    refine rankOk_lookup hr hlk c ?_
    rw [Eq.symm hch]
    exact hc

/-- Description whose root has one good subtree and one sibling of unknown
kind, so evaluation writes the first subtree and then aborts. -/
def partialDesc : PyVal := .dict [("root", .str "R"), ("nodes", .dict [
  ("R", .dict [("type", .str "max"), ("children", .list [.str "B", .str "C"])]),
  ("B", .dict [("type", .str "min"), ("children", .list [.str "D", .str "E"])]),
  ("C", .dict [("type", .str "foo"), ("children", .list [.str "L"])]),
  ("D", .dict [("type", .str "leaf"), ("value", .int 5)]),
  ("E", .dict [("type", .str "leaf"), ("value", .int (-2))]),
  ("L", .dict [("type", .str "leaf"), ("value", .int 1)])])]

/-- Object graph built for partialDesc. -/
def partialStore : Store :=
  [("R", ⟨"R", .str "max", ["B", "C"], .none, Option.none⟩),
   ("B", ⟨"B", .str "min", ["D", "E"], .none, some "R"⟩),
   ("C", ⟨"C", .str "foo", ["L"], .none, some "R"⟩),
   ("D", ⟨"D", .str "leaf", [], .int 5, some "B"⟩),
   ("E", ⟨"E", .str "leaf", [], .int (-2), some "B"⟩),
   ("L", ⟨"L", .str "leaf", [], .int 1, some "C"⟩)]

/-- State partialStore is left in when evaluation of R aborts: the fully
evaluated sibling B keeps its newly written value. -/
def partialErrStore : Store :=
  [("R", ⟨"R", .str "max", ["B", "C"], .none, Option.none⟩),
   ("B", ⟨"B", .str "min", ["D", "E"], .int (-2), some "R"⟩),
   ("C", ⟨"C", .str "foo", ["L"], .none, some "R"⟩),
   ("D", ⟨"D", .str "leaf", [], .int 5, some "B"⟩),
   ("E", ⟨"E", .str "leaf", [], .int (-2), some "B"⟩),
   ("L", ⟨"L", .str "leaf", [], .int 1, some "C"⟩)]

/-- Rank witness for partialStore. -/
def partialRank : String → Nat :=
  fun n => if n = "R" then 2 else if n = "B" then 1 else if n = "C" then 1 else 0

/-- Claim C6: the claim states that whenever miniMax aborts with an error,
no value field has been modified.  Counterexample: on partialStore the
evaluation of R aborts at the unknown-kind sibling C, yet the already
evaluated subtree B keeps its freshly written value -2. -/
theorem evaluateAbortMutatesValues :
    parse_tree_from_dict partialDesc = .ok ("R", partialStore) ∧
    miniMax 10 partialStore "R" = (partialErrStore, Option.none) ∧
    (lookupKey partialStore "B").map Node.value = some PyVal.none ∧
    (lookupKey partialErrStore "B").map Node.value = some (.int (-2)) := by
  refine ⟨by decide, by decide, by decide, by decide⟩

/-- Claim C6 amended: on an acyclic store, when miniMax aborts with an
error the node it was called on keeps its own value unchanged (the
value of a node is written only after all its children evaluated successfully),
though values already written to descendants of earlier-evaluated children
persist. -/
theorem evaluateAbortPreservesCalledNode (fuel : Nat) (s : Store) (n : String)
    (s2 : Store) (rk : String → Nat) (hr : rankOk s rk = true)
    (h : miniMax fuel s n = (s2, Option.none)) :
    (lookupKey s2 n).map Node.value = (lookupKey s n).map Node.value := by
  cases fuel with
  | zero =>
    rw [miniMax_zero] at h
    injection h with h1 h2
    subst h1
    rfl
  | succ fuel =>
    rw [miniMax_succ] at h
    cases hlk : lookupKey s n with
    | none =>
      simp only [mmBody, hlk, Prod.mk.injEq] at h
      obtain ⟨h1, _⟩ := h
      subst h1
      rw [hlk]
    | some nd =>
      by_cases hleaf : nd.type = PyVal.str "leaf"
      · simp only [mmBody, hlk, if_pos hleaf] at h
        injection h with h1 h2
        exact Option.noConfusion h2
      · cases hrc : runChildren (miniMax fuel) s nd.children with
        | mk s1 res =>
          have hw1 := runChildren_frame (miniMax fuel)
            (fun a b c d hh => miniMax_frame fuel a b c d hh) nd.children s s1 res hrc
          have hnval : (lookupKey s1 n).map Node.value =
              (lookupKey s n).map Node.value := by
            rcases hw1.2 n with h1 | ⟨nda, nd2a, f1, f2, f3, f4, f5⟩
            · rw [h1]
            · obtain ⟨c, hcm, hrch⟩ := f5
              have hle := reach_rank hr hrch
              have hlt := rankOk_lookup hr hlk c hcm
              exact absurd (lt_of_le_of_lt hle hlt) (lt_irrefl _)
          cases res with
          | none =>
            simp only [mmBody, hlk, if_neg hleaf, hrc, Prod.mk.injEq] at h
            obtain ⟨h1, _⟩ := h
            subst h1
            rw [hnval, hlk]
          | some vs =>
            by_cases hmax : nd.type = PyVal.str "max"
            · cases hpm : pyMax vs with
              | none =>
                simp only [mmBody, hlk, if_neg hleaf, hrc, if_pos hmax, hpm,
                  Prod.mk.injEq] at h
                obtain ⟨h1, _⟩ := h
                subst h1
                rw [hnval, hlk]
              | some v =>
                simp only [mmBody, hlk, if_neg hleaf, hrc, if_pos hmax, hpm,
                  Prod.mk.injEq] at h
                obtain ⟨_, h2⟩ := h
                exact Option.noConfusion h2
            · by_cases hmin : nd.type = PyVal.str "min"
              · cases hpm : pyMin vs with
                | none =>
                  simp only [mmBody, hlk, if_neg hleaf, hrc, if_neg hmax, if_pos hmin,
                    hpm, Prod.mk.injEq] at h
                  obtain ⟨h1, _⟩ := h
                  subst h1
                  rw [hnval, hlk]
                | some v =>
                  simp only [mmBody, hlk, if_neg hleaf, hrc, if_neg hmax, if_pos hmin,
                    hpm, Prod.mk.injEq] at h
                  obtain ⟨_, h2⟩ := h
                  exact Option.noConfusion h2
              · simp only [mmBody, hlk, if_neg hleaf, hrc, if_neg hmax, if_neg hmin,
                  Prod.mk.injEq] at h
                obtain ⟨h1, _⟩ := h
                subst h1
                rw [hnval, hlk]

/-- Witness for the amended claim C6 on the aborting evaluation of
partialStore. -/
theorem evaluateAbortPreservesCalledNode_witness :
    rankOk partialStore partialRank = true ∧
    miniMax 10 partialStore "R" = (partialErrStore, Option.none) ∧
    (lookupKey partialErrStore "R").map Node.value =
      (lookupKey partialStore "R").map Node.value := by
  refine ⟨by decide, by decide, ?_⟩
  exact evaluateAbortPreservesCalledNode 10 partialStore "R" partialErrStore
    partialRank (by decide) (by decide)

/-- Values of a list of children under a pure evaluator, failing if any
child fails. -/
def childSpecVals (rec2 : String → Option PyVal) : List String → Option (List PyVal)
  | [] => some []
  | c :: cs =>
    match rec2 c with
    | Option.none => Option.none
    | some v =>
      match childSpecVals rec2 cs with
      | Option.none => Option.none
      | some vs => some (v :: vs)

/-- Body of the pure minimax value function, reading only node types,
children lists and leaf values, never the mutable internal values. -/
def svBody (rec2 : Store → String → Option PyVal) (s : Store) (n : String) :
    Option PyVal :=
  match lookupKey s n with
  | Option.none => Option.none
  | some nd =>
    if nd.type = PyVal.str "leaf" then some nd.value
    else
      match childSpecVals (rec2 s) nd.children with
      | Option.none => Option.none
      | some vs =>
        if nd.type = PyVal.str "max" then pyMax vs
        else if nd.type = PyVal.str "min" then pyMin vs
        else Option.none

/-- Pure, mutation-free minimax value of a name in a store, with fuel:
the mathematical backed-up value the evaluator is supposed to produce. -/
def specValue (fuel : Nat) : Store → String → Option PyVal :=
  Nat.rec (motive := fun _ => Store → String → Option PyVal)
    (fun _ _ => Option.none) (fun _ ih => svBody ih) fuel

theorem specValue_zero (s : Store) (n : String) :
    specValue 0 s n = Option.none := rfl

theorem specValue_succ (fuel : Nat) :
    specValue (fuel + 1) = svBody (specValue fuel) := rfl

/-- Canonical backed-up value of a name, at its rank-determined fuel. -/
def svAt (rk : String → Nat) (s : Store) (n : String) : Option PyVal :=
  specValue (rk n + 1) s n

theorem childSpecVals_congr {f g : String → Option PyVal} {cs : List String}
    (h : ∀ c ∈ cs, f c = g c) : childSpecVals f cs = childSpecVals g cs := by
  induction cs with
  | nil => rfl
  | cons c cs ih =>
    simp only [childSpecVals]
    rw [h c (by simp), ih (fun c2 hc2 => h c2 (by simp [hc2]))]

theorem validTree_lookup {s : Store} {k : String} {nd : Node}
    (hv : validTree s = true) (hlk : lookupKey s k = some nd) :
    nodeOkB s nd = true := by
  have hmem := lookupKey_some_mem hlk
  have hall := List.all_eq_true.mp hv (k, nd) hmem
  simpa only [hlk] using hall

theorem validTree_of_lookup {s : Store}
    (h : ∀ k nd, lookupKey s k = some nd → nodeOkB s nd = true) :
    validTree s = true := by
  apply List.all_eq_true.mpr
  intro p hp
  cases hlk : lookupKey s p.1 with
  | none => simp
  | some nd => simpa only [hlk] using h p.1 nd hlk

theorem nodeOkB_writesWithin {s s2 : Store} {P : String → Prop} {nd nd2 : Node}
    {m : String} (hw : writesWithin s P s2)
    (hlk : lookupKey s m = some nd) (hlk2 : lookupKey s2 m = some nd2)
    (hok : nodeOkB s nd = true) : nodeOkB s2 nd2 = true := by
  have hty := writesWithin_type hw m
  rw [hlk, hlk2] at hty
  simp at hty
  have hch := writesWithin_children hw m
  rw [hlk, hlk2] at hch
  simp at hch
  by_cases hleaf : nd.type = PyVal.str "leaf"
  · have hval := writesWithin_leaf_value hw hlk hlk2 hleaf
    simp only [nodeOkB, hleaf, if_true] at hok
    simp only [nodeOkB, hty, hleaf, if_true, hval, hch]
    exact hok
  · simp only [nodeOkB, if_neg hleaf] at hok
    rw [nodeOkB, hty, if_neg hleaf, hch]
    simp only [Bool.and_eq_true] at hok ⊢
    refine ⟨⟨hok.1.1, hok.1.2⟩, ?_⟩
    apply List.all_eq_true.mpr
    intro c hc
    have := List.all_eq_true.mp hok.2 c hc
    simpa [writesWithin_isSome hw c] using this

theorem validTree_writesWithin {s s2 : Store} {P : String → Prop}
    (hw : writesWithin s P s2) (hv : validTree s = true) : validTree s2 = true := by
  apply validTree_of_lookup
  intro k nd2 hlk2
  have hsome := writesWithin_isSome hw k
  rw [hlk2] at hsome
  cases hlk : lookupKey s k with
  | none => rw [hlk] at hsome; cases hsome
  | some nd => exact nodeOkB_writesWithin hw hlk hlk2 (validTree_lookup hv hlk)

theorem specValue_writesWithin {s s2 : Store} {P : String → Prop}
    (hw : writesWithin s P s2) :
    ∀ fuel n, specValue fuel s2 n = specValue fuel s n := by
  intro fuel
  induction fuel with
  | zero => intro n; rfl
  | succ fuel ih =>
    intro n
    rw [specValue_succ]
    show svBody (specValue fuel) s2 n = svBody (specValue fuel) s n
    rcases hw.2 n with h1 | ⟨nd, nd2, f1, f2, f3, f4, f5⟩
    · simp only [svBody, h1]
      cases hlk : lookupKey s n with
      | none => rfl
      | some nd =>
        simp only []
        rw [childSpecVals_congr (fun c _ => ih c)]
    · simp only [svBody, f1, f2]
      have hty : nd2.type = nd.type := by rw [f4]
      have hch : nd2.children = nd.children := by rw [f4]
      rw [hty, hch]
      have hleaf : ¬ nd.type = PyVal.str "leaf" := by
        rcases f3 with f3 | f3 <;> (rw [f3]; decide)
      rw [if_neg hleaf]
      rw [childSpecVals_congr (fun c _ => ih c)]
      rw [if_neg hleaf]

theorem specValue_fuel {s : Store} {rk : String → Nat} (hr : rankOk s rk = true) :
    ∀ f1 f2 n, rk n < f1 → rk n < f2 → specValue f1 s n = specValue f2 s n := by
  intro f1
  induction f1 with
  | zero => intro f2 n h1 h2; exact absurd h1 (Nat.not_lt_zero _)
  | succ f1 ih =>
    intro f2 n h1 h2
    cases f2 with
    | zero => exact absurd h2 (Nat.not_lt_zero _)
    | succ f2 =>
      rw [specValue_succ, specValue_succ]
      show svBody (specValue f1) s n = svBody (specValue f2) s n
      simp only [svBody]
      cases hlk : lookupKey s n with
      | none => rfl
      | some nd =>
        simp only []
        have hcs : ∀ c ∈ nd.children, specValue f1 s c = specValue f2 s c := by
          intro c hc
          have hlt := rankOk_lookup hr hlk c hc
          exact ih f2 c (by omega) (by omega)
        rw [childSpecVals_congr hcs]

theorem childSpecVals_int {g : String → Option PyVal} :
    ∀ cs : List String, (∀ c ∈ cs, ∃ k : Int, g c = some (.int k)) →
    ∃ vs, childSpecVals g cs = some vs ∧ vs.length = cs.length ∧
      ∀ v ∈ vs, isIntV v = true := by
  intro cs
  induction cs with
  | nil => intro _; exact ⟨[], rfl, rfl, by simp⟩
  | cons c cs ih =>
    intro h
    obtain ⟨k, hk⟩ := h c (by simp)
    obtain ⟨vs, hvs, hlen, hint⟩ := ih (fun c2 hc2 => h c2 (by simp [hc2]))
    refine ⟨.int k :: vs, ?_, by simp [hlen], ?_⟩
    · simp only [childSpecVals, hk, hvs]
    · intro v hv
      rcases List.mem_cons.mp hv with hv | hv
      · rw [hv]; rfl
      · exact hint v hv

theorem pyMaxAux_int :
    ∀ (vs : List PyVal) (a : Int), (∀ v ∈ vs, isIntV v = true) →
    ∃ k : Int, pyMaxAux (.int a) vs = some (.int k) := by
  intro vs
  induction vs with
  | nil => intro a _; exact ⟨a, rfl⟩
  | cons v vs ih =>
    intro a h
    have hv := h v (by simp)
    have htail : ∀ v2 ∈ vs, isIntV v2 = true := fun v2 hv2 => h v2 (by simp [hv2])
    cases v with
    | int b =>
      simp only [pyMaxAux, pyGt]
      cases hab : decide (a < b) with
      | true => exact ih b htail
      | false => exact ih a htail
    | none => simp [isIntV] at hv
    | str s2 => simp [isIntV] at hv
    | list l => simp [isIntV] at hv
    | dict d2 => simp [isIntV] at hv

theorem pyMinAux_int :
    ∀ (vs : List PyVal) (a : Int), (∀ v ∈ vs, isIntV v = true) →
    ∃ k : Int, pyMinAux (.int a) vs = some (.int k) := by
  intro vs
  induction vs with
  | nil => intro a _; exact ⟨a, rfl⟩
  | cons v vs ih =>
    intro a h
    have hv := h v (by simp)
    have htail : ∀ v2 ∈ vs, isIntV v2 = true := fun v2 hv2 => h v2 (by simp [hv2])
    cases v with
    | int b =>
      simp only [pyMinAux, pyLt]
      cases hab : decide (b < a) with
      | true => exact ih b htail
      | false => exact ih a htail
    | none => simp [isIntV] at hv
    | str s2 => simp [isIntV] at hv
    | list l => simp [isIntV] at hv
    | dict d2 => simp [isIntV] at hv

theorem pyMax_int {vs : List PyVal} (hne : vs ≠ [])
    (h : ∀ v ∈ vs, isIntV v = true) : ∃ k : Int, pyMax vs = some (.int k) := by
  cases vs with
  | nil => exact absurd rfl hne
  | cons v vs =>
    have hv := h v (by simp)
    cases v with
    | int a => exact pyMaxAux_int vs a (fun v2 hv2 => h v2 (by simp [hv2]))
    | none => simp [isIntV] at hv
    | str s2 => simp [isIntV] at hv
    | list l => simp [isIntV] at hv
    | dict d2 => simp [isIntV] at hv

theorem pyMin_int {vs : List PyVal} (hne : vs ≠ [])
    (h : ∀ v ∈ vs, isIntV v = true) : ∃ k : Int, pyMin vs = some (.int k) := by
  cases vs with
  | nil => exact absurd rfl hne
  | cons v vs =>
    have hv := h v (by simp)
    cases v with
    | int a => exact pyMinAux_int vs a (fun v2 hv2 => h v2 (by simp [hv2]))
    | none => simp [isIntV] at hv
    | str s2 => simp [isIntV] at hv
    | list l => simp [isIntV] at hv
    | dict d2 => simp [isIntV] at hv

theorem reach_trans {s : Store} {a b c : String} (h1 : Reach s a b)
    (h2 : Reach s b c) : Reach s a c := by
  revert h2
  induction h1 with
  | refl n => exact fun h2 => h2
  | @step n m p nd hl hm hr ih => exact fun h2 => Reach.step hl hm (ih h2)

theorem isIntV_exists {v : PyVal} (h : isIntV v = true) : ∃ k : Int, v = .int k := by
  cases v with
  | int k => exact ⟨k, rfl⟩
  | none => simp [isIntV] at h
  | str s2 => simp [isIntV] at h
  | list l => simp [isIntV] at h
  | dict d2 => simp [isIntV] at h

theorem nodeOkB_internal {s : Store} {nd : Node}
    (hok : nodeOkB s nd = true) (hleaf : ¬ nd.type = PyVal.str "leaf") :
    (nd.type = PyVal.str "max" ∨ nd.type = PyVal.str "min") ∧
    nd.children ≠ [] ∧ ∀ c ∈ nd.children, (lookupKey s c).isSome = true := by
  simp only [nodeOkB, if_neg hleaf, Bool.and_eq_true, Bool.or_eq_true,
    decide_eq_true_eq] at hok
  obtain ⟨⟨hmm2, hbne⟩, hall2⟩ := hok
  refine ⟨hmm2, ?_, ?_⟩
  · intro hnil
    rw [hnil] at hbne
    simp at hbne
  · intro c hc
    simpa using List.all_eq_true.mp hall2 c hc

theorem specValue_int {rk : String → Nat} :
    ∀ (fuel : Nat) (s : Store) (n : String), validTree s = true →
    rankOk s rk = true → rk n < fuel → (lookupKey s n).isSome = true →
    ∃ k : Int, specValue fuel s n = some (.int k) := by
  intro fuel
  induction fuel with
  | zero => intro s n _ _ h _; exact absurd h (Nat.not_lt_zero _)
  | succ fuel ih =>
    intro s n hv hr hf hsome
    cases hlk : lookupKey s n with
    | none => rw [hlk] at hsome; cases hsome
    | some nd =>
      have hok := validTree_lookup hv hlk
      rw [specValue_succ]
      show ∃ k, svBody (specValue fuel) s n = some (.int k)
      by_cases hleaf : nd.type = PyVal.str "leaf"
      · simp only [svBody, hlk, if_pos hleaf]
        simp only [nodeOkB, if_pos hleaf, Bool.and_eq_true] at hok
        obtain ⟨k, hk⟩ := isIntV_exists hok.1
        rw [hk]
        exact ⟨k, rfl⟩
      · obtain ⟨hmm2, hne, hall⟩ := nodeOkB_internal hok hleaf
        have hkid : ∀ c ∈ nd.children, ∃ k : Int,
            specValue fuel s c = some (.int k) := by
          intro c hc
          have hlt := rankOk_lookup hr hlk c hc
          exact ih s c hv hr (by omega) (hall c hc)
        obtain ⟨vs, hvs, hlen, hint⟩ := childSpecVals_int nd.children hkid
        have hvne : vs ≠ [] := by
          intro hnil
          rw [hnil] at hlen
          exact hne (List.eq_nil_of_length_eq_zero hlen.symm)
        simp only [svBody, hlk, if_neg hleaf, hvs]
        rcases hmm2 with hmax | hmin
        · rw [if_pos hmax]
          exact pyMax_int hvne hint
        · have hmax2 : ¬ nd.type = PyVal.str "max" := by
            rw [hmin]; decide
          rw [if_neg hmax2, if_pos hmin]
          exact pyMin_int hvne hint

theorem childSpecVals_of_forall2 {g : String → Option PyVal} :
    ∀ {cs : List String} {vs : List PyVal},
      List.Forall₂ (fun c v => g c = some v) cs vs →
      childSpecVals g cs = some vs := by
  intro cs vs h
  induction h with
  | nil => rfl
  | @cons a b l1 l2 hab hl ih => simp only [childSpecVals, hab, ih]

theorem forall2_right {R : String → PyVal → Prop} :
    ∀ {cs : List String} {vs : List PyVal}, List.Forall₂ R cs vs →
      ∀ v ∈ vs, ∃ c ∈ cs, R c v := by
  intro cs vs h
  induction h with
  | nil => intro v hv; simp at hv
  | @cons a b l1 l2 hab hl ih =>
    intro v hv
    rcases List.mem_cons.mp hv with hv | hv
    · exact ⟨a, by simp, hv ▸ hab⟩
    · obtain ⟨c, hc, hr⟩ := ih v hv
      exact ⟨c, by simp [hc], hr⟩

theorem runChildren_correct (f : Store → String → Store × Option PyVal)
    (rk : String → Nat) (B : Nat)
    (hframe : ∀ s n s2 r, f s n = (s2, r) → writesWithin s (Reach s n) s2)
    (hf : ∀ s n, validTree s = true → rankOk s rk = true → rk n < B →
      (lookupKey s n).isSome = true →
      ∃ s2 v, f s n = (s2, some v) ∧ svAt rk s n = some v ∧
        (∀ m, Reach s n m → ∃ nd2, lookupKey s2 m = some nd2 ∧
          svAt rk s m = some nd2.value)) :
    ∀ (cs : List String) (s : Store), validTree s = true → rankOk s rk = true →
      (∀ c ∈ cs, rk c < B ∧ (lookupKey s c).isSome = true) →
      ∃ s2 vs, runChildren f s cs = (s2, some vs) ∧
        List.Forall₂ (fun c v => svAt rk s c = some v) cs vs ∧
        (∀ m, (∃ c, c ∈ cs ∧ Reach s c m) → ∃ nd2, lookupKey s2 m = some nd2 ∧
          svAt rk s m = some nd2.value) := by
  intro cs
  induction cs with
  | nil =>
    intro s hv hr hc
    refine ⟨s, [], rfl, List.Forall₂.nil, ?_⟩
    intro m hm
    obtain ⟨c, hc2, _⟩ := hm
    simp at hc2
  | cons c cs ih =>
    intro s hv hr hc
    obtain ⟨s1, v, hfc, hsv, hpost1⟩ :=
      hf s c hv hr (hc c (by simp)).1 (hc c (by simp)).2
    have hw1 := hframe s c s1 (some v) hfc
    have hv1 := validTree_writesWithin hw1 hv
    have hr1 := rankOk_writesWithin hw1 hr
    have hcs1 : ∀ c2 ∈ cs, rk c2 < B ∧ (lookupKey s1 c2).isSome = true := by
      intro c2 hc2
      refine ⟨(hc c2 (by simp [hc2])).1, ?_⟩
      rw [writesWithin_isSome hw1 c2]
      exact (hc c2 (by simp [hc2])).2
    obtain ⟨s2, vs, hrun, hfa, hpost2⟩ := ih s1 hv1 hr1 hcs1
    have hsvEq : ∀ x, svAt rk s1 x = svAt rk s x := fun x =>
      specValue_writesWithin hw1 _ x
    refine ⟨s2, v :: vs, ?_, ?_, ?_⟩
    · simp only [runChildren, hfc, hrun]
    · refine List.Forall₂.cons hsv ?_
      refine List.Forall₂.imp ?_ hfa
      intro c2 v2 h2
      rw [Eq.symm (hsvEq c2)]
      exact h2
    · intro m hm
      obtain ⟨c2, hc2, hrch⟩ := hm
      have hwtail := runChildren_frame f hframe cs s1 s2 (some vs) hrun
      rcases List.mem_cons.mp hc2 with hc2 | hc2
      · subst hc2
        obtain ⟨nd2, hlk2, hsv2⟩ := hpost1 m hrch
        rcases hwtail.2 m with he | ⟨nda, nd2a, f1, f2, f3, f4, f5⟩
        · exact ⟨nd2, by rw [he]; exact hlk2, hsv2⟩
        · obtain ⟨c3, hc3, hrch3⟩ := f5
          obtain ⟨nd2b, hlk2b, hsv2b⟩ := hpost2 m ⟨c3, hc3, hrch3⟩
          refine ⟨nd2b, hlk2b, ?_⟩
          rw [Eq.symm (hsvEq m)]
          exact hsv2b
      · have hrch1 : Reach s1 c2 m :=
          reach_congr (fun x => (writesWithin_children hw1 x).symm) hrch
        obtain ⟨nd2b, hlk2b, hsv2b⟩ := hpost2 m ⟨c2, hc2, hrch1⟩
        refine ⟨nd2b, hlk2b, ?_⟩
        rw [Eq.symm (hsvEq m)]
        exact hsv2b

theorem miniMax_correct (rk : String → Nat) :
    ∀ (fuel : Nat) (s : Store) (n : String), validTree s = true →
    rankOk s rk = true → rk n < fuel → (lookupKey s n).isSome = true →
    ∃ s2 v, miniMax fuel s n = (s2, some v) ∧ svAt rk s n = some v ∧
      (∀ m, Reach s n m → ∃ nd2, lookupKey s2 m = some nd2 ∧
        svAt rk s m = some nd2.value) := by
  intro fuel
  induction fuel with
  | zero => intro s n _ _ h _; exact absurd h (Nat.not_lt_zero _)
  | succ fuel ih =>
    intro s n hv hr hf hsome
    cases hlk : lookupKey s n with
    | none => rw [hlk] at hsome; cases hsome
    | some nd =>
      have hok := validTree_lookup hv hlk
      by_cases hleaf : nd.type = PyVal.str "leaf"
      · have hrun : miniMax (fuel + 1) s n = (s, some nd.value) := by
          rw [miniMax_succ]
          simp only [mmBody, hlk, if_pos hleaf]
        have hsv : svAt rk s n = some nd.value := by
          show specValue (rk n + 1) s n = some nd.value
          rw [specValue_succ]
          simp only [svBody, hlk, if_pos hleaf]
        have hchempty : nd.children = [] := by
          simp only [nodeOkB, if_pos hleaf, Bool.and_eq_true] at hok
          simpa using hok.2
        refine ⟨s, nd.value, hrun, hsv, ?_⟩
        intro m hm
        cases hm with
        | refl => exact ⟨nd, hlk, hsv⟩
        | @step n2 m2 p2 ndx h1 h2 h3 =>
          rw [hlk] at h1
          injection h1 with h1
          subst h1
          rw [hchempty] at h2
          simp at h2
      · obtain ⟨hmm2, hne, hall⟩ := nodeOkB_internal hok hleaf
        have hclt : ∀ c ∈ nd.children, rk c < fuel ∧ (lookupKey s c).isSome = true := by
          intro c hc
          have := rankOk_lookup hr hlk c hc
          exact ⟨by omega, hall c hc⟩
        obtain ⟨s1, vs, hrun, hfa, hpost⟩ :=
          runChildren_correct (miniMax fuel) rk fuel (miniMax_frame fuel) ih
            nd.children s hv hr hclt
        have hsvkids : ∀ c ∈ nd.children, specValue (rk n) s c = svAt rk s c := by
          intro c hc
          have hlt := rankOk_lookup hr hlk c hc
          exact specValue_fuel hr (rk n) (rk c + 1) c (by omega) (by omega)
        have hcsv : childSpecVals (specValue (rk n) s) nd.children = some vs := by
          rw [childSpecVals_congr hsvkids]
          exact childSpecVals_of_forall2 hfa
        have hints : ∀ v ∈ vs, isIntV v = true := by
          intro v hv2
          obtain ⟨c, hc, hcv⟩ := forall2_right hfa v hv2
          obtain ⟨k, hk⟩ := @specValue_int rk (rk c + 1) s c hv hr
            (by omega) ((hclt c hc).2)
          have hcv2 : specValue (rk c + 1) s c = some v := hcv
          rw [hk] at hcv2
          injection hcv2 with hcv2
          rw [Eq.symm hcv2]
          rfl
        have hvne : vs ≠ [] := by
          intro hnil
          have hlen := List.Forall₂.length_eq hfa
          rw [hnil] at hlen
          simp at hlen
          exact hne hlen
        have hwl := runChildren_frame (miniMax fuel) (miniMax_frame fuel)
          nd.children s s1 (some vs) hrun
        have hsome1 : (lookupKey s1 n).isSome = true := by
          rw [writesWithin_isSome hwl n, hlk]
          rfl
        obtain ⟨nd1, hnd1⟩ := Option.isSome_iff_exists.mp hsome1
        have hpostAll : ∀ (w : PyVal), svAt rk s n = some w →
            ∀ m, Reach s n m →
            ∃ nd2, lookupKey (updNode s1 n (fun n2 => { n2 with value := w })) m =
              some nd2 ∧ svAt rk s m = some nd2.value := by
          intro w hsvw m hm
          by_cases hmn : m = n
          · subst hmn
            refine ⟨{ nd1 with value := w }, ?_, ?_⟩
            · rw [lookupKey_updNode, if_pos rfl, hnd1]
              rfl
            · simpa using hsvw
          · cases hm with
            | refl => exact absurd rfl hmn
            | @step n2 m2 p2 ndx h1 h2 h3 =>
              rw [hlk] at h1
              injection h1 with h1
              subst h1
              obtain ⟨nd2, hlk2, hsv2⟩ := hpost m ⟨m2, h2, h3⟩
              refine ⟨nd2, ?_, hsv2⟩
              rw [lookupKey_updNode, if_neg (fun hh => hmn hh.symm), hlk2]
        rcases hmm2 with hmax | hmin
        · obtain ⟨k, hk⟩ := pyMax_int hvne hints
          have hrun2 : miniMax (fuel + 1) s n =
              (updNode s1 n (fun n2 => { n2 with value := .int k }), some (.int k)) := by
            rw [miniMax_succ]
            simp only [mmBody, hlk, if_neg hleaf, hrun, if_pos hmax, hk]
          have hsv : svAt rk s n = some (.int k) := by
            show specValue (rk n + 1) s n = some (.int k)
            rw [specValue_succ]
            simp only [svBody, hlk, if_neg hleaf, hcsv, if_pos hmax]
            exact hk
          exact ⟨_, .int k, hrun2, hsv, hpostAll (.int k) hsv⟩
        · have hmax2 : ¬ nd.type = PyVal.str "max" := by
            rw [hmin]; decide
          obtain ⟨k, hk⟩ := pyMin_int hvne hints
          have hrun2 : miniMax (fuel + 1) s n =
              (updNode s1 n (fun n2 => { n2 with value := .int k }), some (.int k)) := by
            rw [miniMax_succ]
            simp only [mmBody, hlk, if_neg hleaf, hrun, if_neg hmax2, if_pos hmin, hk]
          have hsv : svAt rk s n = some (.int k) := by
            show specValue (rk n + 1) s n = some (.int k)
            rw [specValue_succ]
            simp only [svBody, hlk, if_neg hleaf, hcsv, if_neg hmax2, if_pos hmin]
            exact hk
          exact ⟨_, .int k, hrun2, hsv, hpostAll (.int k) hsv⟩

theorem parse_ok_root_isSome {d : PyVal} {r : String} {s : Store}
    (hp : parse_tree_from_dict d = .ok (r, s)) :
    (lookupKey s r).isSome = true := by
  unfold parse_tree_from_dict at hp
  repeat' split at hp
  all_goals try exact Except.noConfusion hp
  injection hp with hp
  injection hp with h1 h2
  subst h1
  subst h2
  assumption

theorem reach_isSome {s : Store} (hv : validTree s = true) :
    ∀ {a b : String}, Reach s a b → (lookupKey s a).isSome = true →
    (lookupKey s b).isSome = true := by
  intro a b h
  induction h with
  | refl n => exact id
  | @step n m p nd h1 h2 h3 ih =>
    intro _
    apply ih
    have hok := validTree_lookup hv h1
    by_cases hleaf : nd.type = PyVal.str "leaf"
    · simp only [nodeOkB, if_pos hleaf, Bool.and_eq_true] at hok
      have hnil : nd.children = [] := by simpa using hok.2
      rw [hnil] at h2
      simp at h2
    · exact (nodeOkB_internal hok hleaf).2.2 m h2

/-- Claim C2: for every valid description — one the builder accepts whose
resulting store is a validated tree (leaf values numeric, internal nodes
max/min with children, per validTree) that has a rank function (acyclic) —
evaluation after construction terminates: some recursion budget yields a
successful run returning a numeric value, every node reachable from the
root ends with a numeric value, and every leaf value is unchanged. -/
theorem buildEvalTerminatesAndPopulates (d : PyVal) (r : String) (s : Store)
    (rk : String → Nat) (hp : parse_tree_from_dict d = .ok (r, s))
    (hv : validTree s = true) (hr : rankOk s rk = true) :
    ∃ fuel s2 v, miniMax fuel s r = (s2, some v) ∧ isIntV v = true ∧
      (∀ m, Reach s r m → ∃ nd2, lookupKey s2 m = some nd2 ∧
        isIntV nd2.value = true) ∧
      (∀ m nd nd2, lookupKey s m = some nd → lookupKey s2 m = some nd2 →
        nd.type = PyVal.str "leaf" → nd2.value = nd.value) := by
  have hsome := parse_ok_root_isSome hp
  obtain ⟨s2, v, hrun, hsv, hpost⟩ :=
    miniMax_correct rk (rk r + 1) s r hv hr (by omega) hsome
  have hframe := miniMax_frame (rk r + 1) s r s2 (some v) hrun
  refine ⟨rk r + 1, s2, v, hrun, ?_, ?_, ?_⟩
  · obtain ⟨k, hk⟩ := @specValue_int rk (rk r + 1) s r hv hr (by omega) hsome
    have hsv2 : specValue (rk r + 1) s r = some v := hsv
    rw [hk] at hsv2
    injection hsv2 with hsv2
    rw [Eq.symm hsv2]
    rfl
  · intro m hm
    obtain ⟨nd2, hlk2, hsvm⟩ := hpost m hm
    refine ⟨nd2, hlk2, ?_⟩
    obtain ⟨k, hk⟩ := @specValue_int rk (rk m + 1) s m hv hr (by omega)
      (reach_isSome hv hm hsome)
    have hsvm2 : specValue (rk m + 1) s m = some nd2.value := hsvm
    rw [hk] at hsvm2
    injection hsvm2 with hsvm2
    rw [Eq.symm hsvm2]
    rfl
  · intro m nd nd2 h1 h2 h3
    exact writesWithin_leaf_value hframe h1 h2 h3

/-- Witness for claim C2 on scenario 1. -/
theorem buildEvalTerminatesAndPopulates_witness :
    parse_tree_from_dict scenario1 = .ok ("A", scenario1Store) ∧
    validTree scenario1Store = true ∧
    rankOk scenario1Store scenario1Rank = true ∧
    ∃ fuel s2 v, miniMax fuel scenario1Store "A" = (s2, some v) ∧
      isIntV v = true ∧
      (∀ m, Reach scenario1Store "A" m → ∃ nd2, lookupKey s2 m = some nd2 ∧
        isIntV nd2.value = true) ∧
      (∀ m nd nd2, lookupKey scenario1Store m = some nd →
        lookupKey s2 m = some nd2 →
        nd.type = PyVal.str "leaf" → nd2.value = nd.value) :=
  ⟨by decide, by decide, by decide,
   buildEvalTerminatesAndPopulates scenario1 "A" scenario1Store scenario1Rank
     (by decide) (by decide) (by decide)⟩

theorem childValues_eq_childSpecVals {s2 : Store} {g : String → Option PyVal} :
    ∀ cs : List String, (∀ c ∈ cs, g c = (lookupKey s2 c).map Node.value) →
    childValues s2 cs = childSpecVals g cs := by
  intro cs
  induction cs with
  | nil => intro _; rfl
  | cons c cs ih =>
    intro h
    have hc := h c (by simp)
    simp only [childValues, childSpecVals, hc,
      ih (fun c2 hc2 => h c2 (by simp [hc2]))]
    cases lookupKey s2 c <;> cases childSpecVals g cs <;> rfl

theorem childSpecVals_some_of_each {g : String → Option PyVal} :
    ∀ cs : List String, (∀ c ∈ cs, ∃ vv, g c = some vv) →
    ∃ vs, childSpecVals g cs = some vs := by
  intro cs
  induction cs with
  | nil => intro _; exact ⟨[], rfl⟩
  | cons c cs ih =>
    intro h
    obtain ⟨vv, hvv⟩ := h c (by simp)
    obtain ⟨vs, hvs⟩ := ih (fun c2 hc2 => h c2 (by simp [hc2]))
    exact ⟨vv :: vs, by simp only [childSpecVals, hvv, hvs]⟩

theorem runChildren_mono (f g : Store → String → Store × Option PyVal)
    (hfg : ∀ s n s2 v, f s n = (s2, some v) → g s n = (s2, some v)) :
    ∀ (cs : List String) (s s2 : Store) (vs : List PyVal),
      runChildren f s cs = (s2, some vs) → runChildren g s cs = (s2, some vs) := by
  intro cs
  induction cs with
  | nil => intro s s2 vs h; exact h
  | cons c cs ih =>
    intro s s2 vs h
    cases hc : f s c with
    | mk s1 r1 =>
      cases r1 with
      | none =>
        simp only [runChildren, hc, Prod.mk.injEq] at h
        exact Option.noConfusion h.2
      | some v =>
        cases hrc : runChildren f s1 cs with
        | mk s2b r2 =>
          cases r2 with
          | none =>
            simp only [runChildren, hc, hrc, Prod.mk.injEq] at h
            exact Option.noConfusion h.2
          | some vs2 =>
            simp only [runChildren, hc, hrc, Prod.mk.injEq] at h
            obtain ⟨h1, h2⟩ := h
            injection h2 with h2
            subst h1
            subst h2
            have hg := hfg s c s1 v hc
            have hgr := ih s1 s2b vs2 hrc
            simp only [runChildren, hg, hgr]

theorem miniMax_mono :
    ∀ (fuel g : Nat), fuel ≤ g → ∀ (s : Store) (n : String) (s2 : Store) (v : PyVal),
      miniMax fuel s n = (s2, some v) → miniMax g s n = (s2, some v) := by
  intro fuel
  induction fuel with
  | zero =>
    intro g _ s n s2 v h
    rw [miniMax_zero] at h
    injection h with h1 h2
    exact Option.noConfusion h2
  | succ fuel ih =>
    intro g hle s n s2 v h
    cases g with
    | zero => exact absurd hle (by omega)
    | succ g2 =>
      have hle2 : fuel ≤ g2 := by omega
      rw [miniMax_succ] at h ⊢
      cases hlk : lookupKey s n with
      | none =>
        simp only [mmBody, hlk, Prod.mk.injEq] at h
        exact Option.noConfusion h.2
      | some nd =>
        by_cases hleaf : nd.type = PyVal.str "leaf"
        · simp only [mmBody, hlk, if_pos hleaf] at h ⊢
          exact h
        · cases hrc : runChildren (miniMax fuel) s nd.children with
          | mk s1 res =>
            cases res with
            | none =>
              simp only [mmBody, hlk, if_neg hleaf, hrc, Prod.mk.injEq] at h
              exact Option.noConfusion h.2
            | some vs =>
              have hrc2 := runChildren_mono (miniMax fuel) (miniMax g2)
                (fun s3 n3 s4 v3 hh => ih g2 hle2 s3 n3 s4 v3 hh)
                nd.children s s1 vs hrc
              simp only [mmBody, hlk, if_neg hleaf, hrc] at h
              simp only [mmBody, hlk, if_neg hleaf, hrc2]
              exact h

theorem miniMax_ok_isSome {fuel : Nat} {s : Store} {n : String} {s2 : Store}
    {v : PyVal} (h : miniMax fuel s n = (s2, some v)) :
    (lookupKey s n).isSome = true := by
  cases fuel with
  | zero =>
    rw [miniMax_zero] at h
    injection h with h1 h2
    exact Option.noConfusion h2
  | succ fuel =>
    rw [miniMax_succ] at h
    cases hlk : lookupKey s n with
    | none =>
      simp only [mmBody, hlk, Prod.mk.injEq] at h
      exact Option.noConfusion h.2
    | some nd => rfl

/-- Claim C1: on a validated tree (validTree, acyclic via a rank function),
after any successful miniMax run started at a node, every max node
reachable from that node holds exactly the maximum of the post-evaluation
values of its children, and every min node the minimum. -/
theorem minimaxMaxMinRelation (rk : String → Nat) (fuel : Nat) (s : Store)
    (n : String) (s2 : Store) (v : PyVal)
    (hv : validTree s = true) (hr : rankOk s rk = true)
    (h : miniMax fuel s n = (s2, some v)) :
    ∀ m nd2, Reach s n m → lookupKey s2 m = some nd2 →
      (nd2.type = PyVal.str "max" →
        ∃ vs, childValues s2 nd2.children = some vs ∧ pyMax vs = some nd2.value) ∧
      (nd2.type = PyVal.str "min" →
        ∃ vs, childValues s2 nd2.children = some vs ∧ pyMin vs = some nd2.value) := by
  have hsome := miniMax_ok_isSome h
  have hmono := miniMax_mono fuel (max fuel (rk n + 1)) (le_max_left _ _) s n s2 v h
  obtain ⟨s2b, vb, hrunb, hsvb, hpostb⟩ :=
    miniMax_correct rk (max fuel (rk n + 1)) s n hv hr
      (lt_of_lt_of_le (by omega) (le_max_right _ _)) hsome
  rw [hmono] at hrunb
  injection hrunb with h1 h2
  subst h1
  intro m nd2 hm hlk2
  obtain ⟨nd2b, hlk2b, hsvm⟩ := hpostb m hm
  rw [hlk2] at hlk2b
  injection hlk2b with hlk2b
  subst hlk2b
  have hframe := miniMax_frame (max fuel (rk n + 1)) s n s2 (some v) hmono
  have hty := writesWithin_type hframe m
  have hch := writesWithin_children hframe m
  have hsm : (lookupKey s m).isSome = true := reach_isSome hv hm hsome
  obtain ⟨nd, hnd⟩ := Option.isSome_iff_exists.mp hsm
  rw [hlk2, hnd] at hty hch
  simp only [Option.map] at hty hch
  injection hty with hty
  injection hch with hch
  have hok := validTree_lookup hv hnd
  have hmain : ¬ nd.type = PyVal.str "leaf" →
      ∃ vsp, childValues s2 nd.children = some vsp ∧
        childSpecVals (specValue (rk m) s) nd.children = some vsp := by
    intro hleaf2
    have hpt : ∀ c ∈ nd.children, ∃ ndc, lookupKey s2 c = some ndc ∧
        specValue (rk m) s c = some ndc.value := by
      intro c hc
      have hreachc : Reach s n c := reach_trans hm (Reach.step hnd hc (Reach.refl c))
      obtain ⟨ndc, hndc, hsvc⟩ := hpostb c hreachc
      have hlt := rankOk_lookup hr hnd c hc
      have hfe : specValue (rk m) s c = specValue (rk c + 1) s c :=
        specValue_fuel hr _ _ c (by omega) (by omega)
      exact ⟨ndc, hndc, by rw [hfe]; exact hsvc⟩
    have hcv : childValues s2 nd.children =
        childSpecVals (specValue (rk m) s) nd.children := by
      apply childValues_eq_childSpecVals
      intro c hc
      obtain ⟨ndc, hndc, hsvc⟩ := hpt c hc
      rw [hndc, hsvc]
      rfl
    obtain ⟨vsp, hvsp⟩ := childSpecVals_some_of_each nd.children
      (fun c hc => by
        obtain ⟨ndc, hndc, hsvc⟩ := hpt c hc
        exact ⟨ndc.value, hsvc⟩)
    exact ⟨vsp, by rw [hcv]; exact hvsp, hvsp⟩
  constructor
  · intro hmax
    have hmax2 : nd.type = PyVal.str "max" := hty.symm.trans hmax
    have hleaf2 : ¬ nd.type = PyVal.str "leaf" := by rw [hmax2]; decide
    obtain ⟨vsp, hcv, hcsp⟩ := hmain hleaf2
    have hsvm2 : specValue (rk m + 1) s m = some nd2.value := hsvm
    rw [specValue_succ] at hsvm2
    simp only [svBody, hnd, if_neg hleaf2, hcsp, if_pos hmax2] at hsvm2
    refine ⟨vsp, ?_, hsvm2⟩
    rw [hch]
    exact hcv
  · intro hmin
    have hmin2 : nd.type = PyVal.str "min" := hty.symm.trans hmin
    have hleaf2 : ¬ nd.type = PyVal.str "leaf" := by rw [hmin2]; decide
    have hmax2 : ¬ nd.type = PyVal.str "max" := by rw [hmin2]; decide
    obtain ⟨vsp, hcv, hcsp⟩ := hmain hleaf2
    have hsvm2 : specValue (rk m + 1) s m = some nd2.value := hsvm
    rw [specValue_succ] at hsvm2
    simp only [svBody, hnd, if_neg hleaf2, hcsp, if_neg hmax2, if_pos hmin2] at hsvm2
    refine ⟨vsp, ?_, hsvm2⟩
    rw [hch]
    exact hcv

/-- Witness for claim C1 on scenario 1: evaluation gives B = -2 and A = 3,
the max node A holds the maximum over the post-evaluation values of its
children and the min node B the minimum over those of its own. -/
theorem minimaxMaxMinRelation_witness :
    validTree scenario1Store = true ∧
    rankOk scenario1Store scenario1Rank = true ∧
    miniMax 3 scenario1Store "A" = (scenario1Post, some (.int 3)) ∧
    (lookupKey scenario1Post "B").map Node.value = some (.int (-2)) ∧
    (lookupKey scenario1Post "A").map Node.value = some (.int 3) ∧
    (∃ vs, childValues scenario1Post ["B", "C"] = some vs ∧
      pyMax vs = some (.int 3)) ∧
    (∃ vs, childValues scenario1Post ["D", "E"] = some vs ∧
      pyMin vs = some (.int (-2))) := by
  refine ⟨by decide, by decide, by decide, by decide, by decide, ?_, ?_⟩
  · exact (minimaxMaxMinRelation scenario1Rank 3 scenario1Store "A"
      scenario1Post (.int 3) (by decide) (by decide) (by decide) "A"
      ⟨"A", .str "max", ["B", "C"], .int 3, Option.none⟩ (Reach.refl "A")
      (by decide)).1 rfl
  · have hreach : Reach scenario1Store "A" "B" :=
      Reach.step (show lookupKey scenario1Store "A" =
          some ⟨"A", .str "max", ["B", "C"], PyVal.none, Option.none⟩ by decide)
        (by decide) (Reach.refl "B")
    exact (minimaxMaxMinRelation scenario1Rank 3 scenario1Store "A"
      scenario1Post (.int 3) (by decide) (by decide) (by decide) "B"
      ⟨"B", .str "min", ["D", "E"], .int (-2), some "A"⟩ hreach
      (by decide)).2 rfl

/-- String elements of a declared children list (on a successfully linked
list every element is a string, so this is the full list of child names). -/
def strNames : List PyVal → List String
  | [] => []
  | .str cs :: rest => cs :: strNames rest
  | _ :: rest => strNames rest

/-- Declared children value of a node spec, as the second pass reads it. -/
def declaredKids (spec : PyVal) : List PyVal :=
  match spec with
  | .dict fields =>
    match (lookupKey fields "children").getD (.list []) with
    | .list cs => cs
    | _ => []
  | _ => []

/-- Agreement of two stores on everything the evaluator reads: per name the
same type, children and value (the parent back-reference is free, never
read by evaluation). -/
def evalEquiv (s t : Store) : Prop :=
  ∀ m, (lookupKey s m).map Node.type = (lookupKey t m).map Node.type ∧
    (lookupKey s m).map Node.children = (lookupKey t m).map Node.children ∧
    (lookupKey s m).map Node.value = (lookupKey t m).map Node.value

theorem lookupKey_perm {α : Type} :
    ∀ {l l2 : List (String × α)}, l.Perm l2 → (l.map Prod.fst).Nodup →
    ∀ k, lookupKey l k = lookupKey l2 k := by
  intro l l2 hp
  induction hp with
  | nil => intro _ k; rfl
  | @cons x l1 l2 hp ih =>
    intro hnd k
    simp only [List.map_cons, List.nodup_cons] at hnd
    obtain ⟨x1, x2⟩ := x
    by_cases hk : x1 = k
    · simp [lookupKey, hk]
    · simp only [lookupKey, if_neg hk]
      exact ih hnd.2 k
  | @swap x y l1 =>
    intro hnd k
    obtain ⟨x1, x2⟩ := x
    obtain ⟨y1, y2⟩ := y
    simp only [List.map_cons, List.nodup_cons, List.mem_cons] at hnd
    have hyx : ¬ y1 = x1 := fun hh => hnd.1 (Or.inl hh)
    by_cases h1 : y1 = k
    · subst h1
      have hx : ¬ x1 = y1 := fun hh => hyx hh.symm
      simp [lookupKey, hx]
    · by_cases h2 : x1 = k
      · subst h2
        simp [lookupKey, h1]
      · simp [lookupKey, h1, h2]
  | @trans l1 l2 l3 hp1 hp2 ih1 ih2 =>
    intro hnd k
    have hnd2 : (l2.map Prod.fst).Nodup := ((hp1.map Prod.fst).nodup_iff).mp hnd
    rw [ih1 hnd k, ih2 hnd2 k]

theorem lookupKey_none_iff {α : Type} :
    ∀ (l : List (String × α)) (k : String),
      lookupKey l k = Option.none ↔ k ∉ l.map Prod.fst := by
  intro l
  induction l with
  | nil => intro k; simp [lookupKey]
  | cons p rest ih =>
    intro k
    obtain ⟨k2, v⟩ := p
    by_cases hk : k2 = k
    · subst hk
      simp [lookupKey]
    · simp only [lookupKey, if_neg hk, List.map_cons, List.mem_cons]
      rw [ih k]
      constructor
      · intro h hh
        rcases hh with hh | hh
        · exact hk hh.symm
        · exact h hh
      · intro h
        exact fun hh => h (Or.inr hh)

theorem evalEquiv_refl (s : Store) : evalEquiv s s := fun _ => ⟨rfl, rfl, rfl⟩

theorem evalEquiv_updNode {s t : Store} (h : evalEquiv s t) (k : String)
    (v : PyVal) :
    evalEquiv (updNode s k (fun n2 => { n2 with value := v }))
      (updNode t k (fun n2 => { n2 with value := v })) := by
  intro m
  obtain ⟨h1, h2, h3⟩ := h m
  rw [lookupKey_updNode, lookupKey_updNode]
  by_cases hk : k = m
  · rw [if_pos hk, if_pos hk]
    cases hls : lookupKey s m with
    | none =>
      rw [hls] at h1
      cases hlt : lookupKey t m with
      | none => exact ⟨rfl, rfl, rfl⟩
      | some nd2 => rw [hlt] at h1; cases h1
    | some nd =>
      rw [hls] at h1 h2 h3
      cases hlt : lookupKey t m with
      | none => rw [hlt] at h1; cases h1
      | some nd2 =>
        rw [hlt] at h1 h2 h3
        simp only [Option.map] at h1 h2 h3
        injection h1 with h1
        injection h2 with h2
        exact ⟨by simp [h1], by simp [h2], by simp⟩
  · rw [if_neg hk, if_neg hk]
    exact ⟨h1, h2, h3⟩

theorem runChildren_equiv (f g : Store → String → Store × Option PyVal)
    (hfg : ∀ s t n s2 t2 r r2, evalEquiv s t → f s n = (s2, r) →
      g t n = (t2, r2) → r = r2 ∧ evalEquiv s2 t2) :
    ∀ (cs : List String) (s t s2 t2 : Store) (r r2 : Option (List PyVal)),
      evalEquiv s t → runChildren f s cs = (s2, r) →
      runChildren g t cs = (t2, r2) → r = r2 ∧ evalEquiv s2 t2 := by
  intro cs
  induction cs with
  | nil =>
    intro s t s2 t2 r r2 hst h1 h2
    simp only [runChildren, Prod.mk.injEq] at h1 h2
    obtain ⟨hs, hr⟩ := h1
    obtain ⟨ht, hr2⟩ := h2
    subst hs; subst ht; subst hr; subst hr2
    exact ⟨rfl, hst⟩
  | cons c cs ih =>
    intro s t s2 t2 r r2 hst h1 h2
    cases hfc : f s c with
    | mk s1 ra =>
      cases hgc : g t c with
      | mk t1 rb =>
        obtain ⟨hrab, he1⟩ := hfg s t c s1 t1 ra rb hst hfc hgc
        subst hrab
        cases ra with
        | none =>
          simp only [runChildren, hfc, hgc, Prod.mk.injEq] at h1 h2
          obtain ⟨hs, hr⟩ := h1
          obtain ⟨ht, hr2⟩ := h2
          subst hs; subst ht; subst hr; subst hr2
          exact ⟨rfl, he1⟩
        | some v =>
          cases hrc1 : runChildren f s1 cs with
          | mk s2b rc =>
            cases hrc2 : runChildren g t1 cs with
            | mk t2b rd =>
              obtain ⟨hrcd, he2⟩ := ih s1 t1 s2b t2b rc rd he1 hrc1 hrc2
              subst hrcd
              cases rc with
              | none =>
                simp only [runChildren, hfc, hgc, hrc1, hrc2, Prod.mk.injEq] at h1 h2
                obtain ⟨hs, hr⟩ := h1
                obtain ⟨ht, hr2⟩ := h2
                subst hs; subst ht; subst hr; subst hr2
                exact ⟨rfl, he2⟩
              | some vs =>
                simp only [runChildren, hfc, hgc, hrc1, hrc2, Prod.mk.injEq] at h1 h2
                obtain ⟨hs, hr⟩ := h1
                obtain ⟨ht, hr2⟩ := h2
                subst hs; subst ht; subst hr; subst hr2
                exact ⟨rfl, he2⟩

theorem miniMax_equiv :
    ∀ (fuel : Nat) (s t : Store) (n : String) (s2 t2 : Store)
      (r r2 : Option PyVal), evalEquiv s t → miniMax fuel s n = (s2, r) →
      miniMax fuel t n = (t2, r2) → r = r2 ∧ evalEquiv s2 t2 := by
  intro fuel
  induction fuel with
  | zero =>
    intro s t n s2 t2 r r2 hst h1 h2
    rw [miniMax_zero] at h1 h2
    injection h1 with ha hb
    injection h2 with hc hd
    subst ha; subst hb; subst hc; subst hd
    exact ⟨rfl, hst⟩
  | succ fuel ih =>
    intro s t n s2 t2 r r2 hst h1 h2
    rw [miniMax_succ] at h1 h2
    obtain ⟨hty, hch, hval⟩ := hst n
    cases hls : lookupKey s n with
    | none =>
      rw [hls] at hty
      cases hlt : lookupKey t n with
      | some nd2 => rw [hlt] at hty; cases hty
      | none =>
        simp only [mmBody, hls, Prod.mk.injEq] at h1
        simp only [mmBody, hlt, Prod.mk.injEq] at h2
        obtain ⟨hs, hr⟩ := h1
        obtain ⟨ht, hr2⟩ := h2
        subst hs; subst ht; subst hr; subst hr2
        exact ⟨rfl, hst⟩
    | some nd =>
      rw [hls] at hty hch hval
      cases hlt : lookupKey t n with
      | none => rw [hlt] at hty; cases hty
      | some nd2 =>
        rw [hlt] at hty hch hval
        simp only [Option.map] at hty hch hval
        injection hty with hty
        injection hch with hch
        injection hval with hval
        by_cases hleaf : nd.type = PyVal.str "leaf"
        · have hleaf2 : nd2.type = PyVal.str "leaf" := by rw [Eq.symm hty]; exact hleaf
          simp only [mmBody, hls, if_pos hleaf, Prod.mk.injEq] at h1
          simp only [mmBody, hlt, if_pos hleaf2, Prod.mk.injEq] at h2
          obtain ⟨hs, hr⟩ := h1
          obtain ⟨ht, hr2⟩ := h2
          subst hs; subst ht; subst hr; subst hr2
          rw [hval]
          exact ⟨rfl, hst⟩
        · have hleaf2 : ¬ nd2.type = PyVal.str "leaf" := by
            rw [Eq.symm hty]; exact hleaf
          cases hrc1 : runChildren (miniMax fuel) s nd.children with
          | mk s1 res =>
            cases hrc2 : runChildren (miniMax fuel) t nd2.children with
            | mk t1 res2 =>
              have hrc2b : runChildren (miniMax fuel) t nd.children = (t1, res2) := by
                rw [hch]; exact hrc2
              obtain ⟨hres, he1⟩ := runChildren_equiv (miniMax fuel) (miniMax fuel)
                (fun s3 t3 n3 s4 t4 r3 r4 hequiv ha hb =>
                  ih s3 t3 n3 s4 t4 r3 r4 hequiv ha hb)
                nd.children s t s1 t1 res res2 hst hrc1 hrc2b
              subst hres
              cases res with
              | none =>
                simp only [mmBody, hls, if_neg hleaf, hrc1, Prod.mk.injEq] at h1
                simp only [mmBody, hlt, if_neg hleaf2, hrc2, Prod.mk.injEq] at h2
                obtain ⟨hs, hr⟩ := h1
                obtain ⟨ht, hr2⟩ := h2
                subst hs; subst ht; subst hr; subst hr2
                exact ⟨rfl, he1⟩
              | some vs =>
                by_cases hmax : nd.type = PyVal.str "max"
                · have hmax2 : nd2.type = PyVal.str "max" := by
                    rw [Eq.symm hty]; exact hmax
                  cases hpm : pyMax vs with
                  | none =>
                    simp only [mmBody, hls, if_neg hleaf, hrc1, if_pos hmax, hpm,
                      Prod.mk.injEq] at h1
                    simp only [mmBody, hlt, if_neg hleaf2, hrc2, if_pos hmax2, hpm,
                      Prod.mk.injEq] at h2
                    obtain ⟨hs, hr⟩ := h1
                    obtain ⟨ht, hr2⟩ := h2
                    subst hs; subst ht; subst hr; subst hr2
                    exact ⟨rfl, he1⟩
                  | some v =>
                    simp only [mmBody, hls, if_neg hleaf, hrc1, if_pos hmax, hpm,
                      Prod.mk.injEq] at h1
                    simp only [mmBody, hlt, if_neg hleaf2, hrc2, if_pos hmax2, hpm,
                      Prod.mk.injEq] at h2
                    obtain ⟨hs, hr⟩ := h1
                    obtain ⟨ht, hr2⟩ := h2
                    subst hr; subst hr2
                    rw [Eq.symm hs, Eq.symm ht]
                    exact ⟨rfl, evalEquiv_updNode he1 n v⟩
                · have hmax2 : ¬ nd2.type = PyVal.str "max" := by
                    rw [Eq.symm hty]; exact hmax
                  by_cases hmin : nd.type = PyVal.str "min"
                  · have hmin2 : nd2.type = PyVal.str "min" := by
                      rw [Eq.symm hty]; exact hmin
                    cases hpm : pyMin vs with
                    | none =>
                      simp only [mmBody, hls, if_neg hleaf, hrc1, if_neg hmax,
                        if_pos hmin, hpm, Prod.mk.injEq] at h1
                      simp only [mmBody, hlt, if_neg hleaf2, hrc2, if_neg hmax2,
                        if_pos hmin2, hpm, Prod.mk.injEq] at h2
                      obtain ⟨hs, hr⟩ := h1
                      obtain ⟨ht, hr2⟩ := h2
                      subst hs; subst ht; subst hr; subst hr2
                      exact ⟨rfl, he1⟩
                    | some v =>
                      simp only [mmBody, hls, if_neg hleaf, hrc1, if_neg hmax,
                        if_pos hmin, hpm, Prod.mk.injEq] at h1
                      simp only [mmBody, hlt, if_neg hleaf2, hrc2, if_neg hmax2,
                        if_pos hmin2, hpm, Prod.mk.injEq] at h2
                      obtain ⟨hs, hr⟩ := h1
                      obtain ⟨ht, hr2⟩ := h2
                      subst hr; subst hr2
                      rw [Eq.symm hs, Eq.symm ht]
                      exact ⟨rfl, evalEquiv_updNode he1 n v⟩
                  · have hmin2 : ¬ nd2.type = PyVal.str "min" := by
                      rw [Eq.symm hty]; exact hmin
                    simp only [mmBody, hls, if_neg hleaf, hrc1, if_neg hmax,
                      if_neg hmin, Prod.mk.injEq] at h1
                    simp only [mmBody, hlt, if_neg hleaf2, hrc2, if_neg hmax2,
                      if_neg hmin2, Prod.mk.injEq] at h2
                    obtain ⟨hs, hr⟩ := h1
                    obtain ⟨ht, hr2⟩ := h2
                    subst hs; subst ht; subst hr; subst hr2
                    exact ⟨rfl, he1⟩

/-- Success test for an exception-throwing computation. -/
def isOkE {ε α : Type} : Except ε α → Bool
  | .ok _ => true
  | .error _ => false

theorem phase1_keys : ∀ (l : List (String × PyVal)) (s : Store),
    phase1 l = .ok s → storeKeys s = l.map Prod.fst := by
  intro l
  induction l with
  | nil =>
    intro s h
    simp only [phase1] at h
    injection h with h
    rw [Eq.symm h]
    rfl
  | cons p rest ih =>
    intro s h
    obtain ⟨k, spec⟩ := p
    cases hmk : mkNodeE k spec with
    | error e =>
      simp only [phase1, hmk] at h
      exact Except.noConfusion h
    | ok nd =>
      cases hrest : phase1 rest with
      | error e =>
        simp only [phase1, hmk, hrest] at h
        exact Except.noConfusion h
      | ok srest =>
        simp only [phase1, hmk, hrest] at h
        injection h with h
        rw [Eq.symm h]
        simp only [storeKeys, List.map_cons]
        rw [show (List.map Prod.fst srest) = storeKeys srest from rfl, ih srest hrest]

theorem phase1_lookup : ∀ (l : List (String × PyVal)) (s : Store),
    phase1 l = .ok s → ∀ k,
      (∀ spec, lookupKey l k = some spec →
        ∃ nd, mkNodeE k spec = .ok nd ∧ lookupKey s k = some nd) ∧
      (lookupKey l k = Option.none → lookupKey s k = Option.none) := by
  intro l
  induction l with
  | nil =>
    intro s h k
    simp only [phase1] at h
    injection h with h
    rw [Eq.symm h]
    exact ⟨fun spec hs => Option.noConfusion hs, fun _ => rfl⟩
  | cons p rest ih =>
    intro s h k
    obtain ⟨k2, spec2⟩ := p
    cases hmk : mkNodeE k2 spec2 with
    | error e =>
      simp only [phase1, hmk] at h
      exact Except.noConfusion h
    | ok nd =>
      cases hrest : phase1 rest with
      | error e =>
        simp only [phase1, hmk, hrest] at h
        exact Except.noConfusion h
      | ok srest =>
        simp only [phase1, hmk, hrest] at h
        injection h with h
        rw [Eq.symm h]
        by_cases hk : k2 = k
        · subst hk
          refine ⟨fun spec hs => ?_, fun hs => ?_⟩
          · rw [lookupKey, if_pos rfl] at hs
            injection hs with hs
            subst hs
            exact ⟨nd, hmk, by rw [lookupKey, if_pos rfl]⟩
          · rw [lookupKey, if_pos rfl] at hs
            cases hs
        · refine ⟨fun spec hs => ?_, fun hs => ?_⟩
          · rw [lookupKey, if_neg hk] at hs
            obtain ⟨nd2, hnd2, hlk2⟩ := (ih srest hrest k).1 spec hs
            exact ⟨nd2, hnd2, by rw [lookupKey, if_neg hk]; exact hlk2⟩
          · rw [lookupKey, if_neg hk] at hs
            rw [lookupKey, if_neg hk]
            exact (ih srest hrest k).2 hs

theorem phase1_isOk_iff : ∀ l : List (String × PyVal),
    isOkE (phase1 l) = true ↔ ∀ p ∈ l, isOkE (mkNodeE p.1 p.2) = true := by
  intro l
  induction l with
  | nil => simp [phase1, isOkE]
  | cons p rest ih =>
    obtain ⟨k, spec⟩ := p
    cases hmk : mkNodeE k spec with
    | error e =>
      simp only [phase1, hmk]
      constructor
      · intro h; cases h
      · intro h
        have := h (k, spec) (by simp)
        rw [hmk] at this
        cases this
    | ok nd =>
      cases hrest : phase1 rest with
      | error e =>
        simp only [phase1, hmk, hrest]
        constructor
        · intro h; cases h
        · intro h
          have h2 := ih.mpr (fun p hp => h p (by simp [hp]))
          rw [hrest] at h2
          cases h2
      | ok srest =>
        simp only [phase1, hmk, hrest]
        constructor
        · intro _ p hp
          rcases List.mem_cons.mp hp with hp | hp
          · rw [hp, hmk]; rfl
          · have h2 := ih.mp (by rw [hrest]; rfl)
            exact h2 p hp
        · intro _; rfl

theorem lookupKey_updNode_proj {γ : Type} (g : Node → γ) (f : Node → Node)
    (hf : ∀ nd, g (f nd) = g nd) (s : Store) (k m : String) :
    (lookupKey (updNode s k f) m).map g = (lookupKey s m).map g := by
  rw [lookupKey_updNode]
  by_cases hk : k = m
  · rw [if_pos hk]
    cases lookupKey s m with
    | none => rfl
    | some nd => simp [hf]
  · rw [if_neg hk]

theorem isSome_of_map_type {o1 o2 : Option Node}
    (h : o1.map Node.type = o2.map Node.type) : o1.isSome = o2.isSome := by
  cases o1 with
  | none =>
    cases o2 with
    | none => rfl
    | some b => cases h
  | some a =>
    cases o2 with
    | none => cases h
    | some b => rfl

theorem appendChild_cases (s : Store) (p c : String) :
    appendChild s p c =
      updNode s p (fun nd => { nd with children := nd.children ++ [c] }) ∨
    ∃ q, appendChild s p c =
      updNode (updNode s p (fun nd => { nd with children := nd.children ++ [c] }))
        c (fun nd => { nd with parent := some q }) := by
  cases hlk : lookupKey (updNode s p (fun nd => { nd with children := nd.children ++ [c] })) c with
  | none => exact Or.inl (by simp only [appendChild, hlk])
  | some cnd =>
    by_cases hpar : cnd.parent.isNone = true
    · exact Or.inr ⟨p, by simp only [appendChild, hlk, if_pos hpar]⟩
    · exact Or.inl (by simp only [appendChild, hlk, if_neg hpar])

theorem appendChild_type (s : Store) (p c : String) (m : String) :
    (lookupKey (appendChild s p c) m).map Node.type =
      (lookupKey s m).map Node.type := by
  rcases appendChild_cases s p c with h | ⟨q, h⟩ <;> rw [h]
  · exact lookupKey_updNode_proj Node.type
      (fun nd => { nd with children := nd.children ++ [c] }) (fun nd => rfl) s p m
  · rw [lookupKey_updNode_proj Node.type
      (fun nd => { nd with parent := some q }) (fun nd => rfl) _ c m]
    exact lookupKey_updNode_proj Node.type
      (fun nd => { nd with children := nd.children ++ [c] }) (fun nd => rfl) s p m

theorem appendChild_value (s : Store) (p c : String) (m : String) :
    (lookupKey (appendChild s p c) m).map Node.value =
      (lookupKey s m).map Node.value := by
  rcases appendChild_cases s p c with h | ⟨q, h⟩ <;> rw [h]
  · exact lookupKey_updNode_proj Node.value
      (fun nd => { nd with children := nd.children ++ [c] }) (fun nd => rfl) s p m
  · rw [lookupKey_updNode_proj Node.value
      (fun nd => { nd with parent := some q }) (fun nd => rfl) _ c m]
    exact lookupKey_updNode_proj Node.value
      (fun nd => { nd with children := nd.children ++ [c] }) (fun nd => rfl) s p m

theorem appendChild_keys (s : Store) (p c : String) :
    storeKeys (appendChild s p c) = storeKeys s := by
  rcases appendChild_cases s p c with h | ⟨q, h⟩ <;> rw [h]
  · exact storeKeys_updNode
  · rw [storeKeys_updNode, storeKeys_updNode]

theorem appendChild_children_ne (s : Store) (p c : String) {m : String}
    (hne : m ≠ p) :
    (lookupKey (appendChild s p c) m).map Node.children =
      (lookupKey s m).map Node.children := by
  rcases appendChild_cases s p c with h | ⟨q, h⟩ <;> rw [h]
  · rw [lookupKey_updNode, if_neg (fun hh => hne hh.symm)]
  · rw [lookupKey_updNode_proj Node.children
      (fun nd => { nd with parent := some q }) (fun nd => rfl) _ c m]
    rw [lookupKey_updNode, if_neg (fun hh => hne hh.symm)]

theorem appendChild_children_self (s : Store) (p c : String) :
    (lookupKey (appendChild s p c) p).map Node.children =
      (lookupKey s p).map (fun nd => nd.children ++ [c]) := by
  rcases appendChild_cases s p c with h | ⟨q, h⟩ <;> rw [h]
  · rw [lookupKey_updNode, if_pos rfl]
    cases lookupKey s p with
    | none => rfl
    | some nd => rfl
  · rw [lookupKey_updNode_proj Node.children
      (fun nd => { nd with parent := some q }) (fun nd => rfl) _ c p]
    rw [lookupKey_updNode, if_pos rfl]
    cases lookupKey s p with
    | none => rfl
    | some nd => rfl

theorem linkOne_shape (p : String) :
    ∀ (cnames : List PyVal) (s s2 : Store), linkOne p s cnames = .ok s2 →
      storeKeys s2 = storeKeys s ∧
      (∀ m, (lookupKey s2 m).map Node.type = (lookupKey s m).map Node.type) ∧
      (∀ m, (lookupKey s2 m).map Node.value = (lookupKey s m).map Node.value) ∧
      (∀ m, m ≠ p →
        (lookupKey s2 m).map Node.children = (lookupKey s m).map Node.children) ∧
      (lookupKey s2 p).map Node.children =
        (lookupKey s p).map (fun nd => nd.children ++ strNames cnames) := by
  intro cnames
  induction cnames with
  | nil =>
    intro s s2 h
    simp only [linkOne] at h
    injection h with h
    subst h
    refine ⟨rfl, fun _ => rfl, fun _ => rfl, fun _ _ => rfl, ?_⟩
    cases lookupKey s p with
    | none => rfl
    | some nd => simp [strNames]
  | cons c rest ih =>
    intro s s2 h
    cases c with
    | list a => simp only [linkOne] at h; exact Except.noConfusion h
    | dict a => simp only [linkOne] at h; exact Except.noConfusion h
    | none => simp only [linkOne] at h; exact Except.noConfusion h
    | int a => simp only [linkOne] at h; exact Except.noConfusion h
    | str cs =>
      by_cases hb : (lookupKey s cs).isSome = true
      · simp only [linkOne, if_pos hb] at h
        obtain ⟨hkeys, hty, hval, hchne, hchp⟩ := ih (appendChild s p cs) s2 h
        refine ⟨?_, ?_, ?_, ?_, ?_⟩
        · rw [hkeys, appendChild_keys]
        · intro m
          rw [hty m, appendChild_type]
        · intro m
          rw [hval m, appendChild_value]
        · intro m hm
          rw [hchne m hm, appendChild_children_ne s p cs hm]
        · have hac := appendChild_children_self s p cs
          cases hsp : lookupKey s p with
          | none =>
            rw [hsp] at hac
            cases hacp : lookupKey (appendChild s p cs) p with
            | some nd2 => rw [hacp] at hac; cases hac
            | none =>
              rw [hchp, hacp]
              rfl
          | some nd =>
            rw [hsp] at hac
            cases hacp : lookupKey (appendChild s p cs) p with
            | none => rw [hacp] at hac; cases hac
            | some nd2 =>
              rw [hacp] at hac
              simp only [Option.map] at hac
              injection hac with hac
              rw [hchp, hacp]
              simp only [Option.map, strNames, hac]
              rw [List.append_assoc]
              rfl
      · simp only [linkOne, if_neg hb] at h
        exact Except.noConfusion h

theorem linkOne_isOk_iff (p : String) :
    ∀ (cnames : List PyVal) (s : Store),
      isOkE (linkOne p s cnames) = true ↔
      ∀ c ∈ cnames, ∃ cs, c = .str cs ∧ (lookupKey s cs).isSome = true := by
  intro cnames
  induction cnames with
  | nil =>
    intro s
    simp [linkOne, isOkE]
  | cons c rest ih =>
    intro s
    cases c with
    | list a =>
      simp only [linkOne, isOkE]
      constructor
      · intro h; cases h
      · intro h
        obtain ⟨cs, hcs, _⟩ := h (.list a) (by simp)
        cases hcs
    | dict a =>
      simp only [linkOne, isOkE]
      constructor
      · intro h; cases h
      · intro h
        obtain ⟨cs, hcs, _⟩ := h (.dict a) (by simp)
        cases hcs
    | none =>
      simp only [linkOne, isOkE]
      constructor
      · intro h; cases h
      · intro h
        obtain ⟨cs, hcs, _⟩ := h .none (by simp)
        cases hcs
    | int a =>
      simp only [linkOne, isOkE]
      constructor
      · intro h; cases h
      · intro h
        obtain ⟨cs, hcs, _⟩ := h (.int a) (by simp)
        cases hcs
    | str cs0 =>
      by_cases hb : (lookupKey s cs0).isSome = true
      · simp only [linkOne, if_pos hb]
        rw [ih (appendChild s p cs0)]
        have hiso : ∀ x, (lookupKey (appendChild s p cs0) x).isSome =
            (lookupKey s x).isSome :=
          fun x => isSome_of_map_type (appendChild_type s p cs0 x)
        constructor
        · intro h c hc
          rcases List.mem_cons.mp hc with hc | hc
          · exact ⟨cs0, hc, hb⟩
          · obtain ⟨cs, hcs, hbs⟩ := h c hc
            exact ⟨cs, hcs, by rw [Eq.symm (hiso cs)]; exact hbs⟩
        · intro h c hc
          obtain ⟨cs, hcs, hbs⟩ := h c (by simp [hc])
          exact ⟨cs, hcs, by rw [hiso cs]; exact hbs⟩
      · simp only [linkOne, if_neg hb, isOkE]
        constructor
        · intro h; cases h
        · intro h
          obtain ⟨cs, hcs, hbs⟩ := h (.str cs0) (by simp)
          injection hcs with hcs
          subst hcs
          exact absurd hbs hb

/-- Success condition of one linking step, phrased against a store through
what the step actually reads: the node type under the name, the spec shape,
and boundness of each declared child name. -/
def linkNodeOkP (s : Store) (k : String) (spec : PyVal) : Prop :=
  ∃ nd, lookupKey s k = some nd ∧
    (nd.type = PyVal.str "leaf" ∨
      (¬ nd.type = PyVal.str "leaf" ∧
       ∃ fields cs, spec = .dict fields ∧
         (lookupKey fields "children").getD (.list []) = .list cs ∧
         ∀ c ∈ cs, ∃ cname, c = .str cname ∧ (lookupKey s cname).isSome = true))

theorem linkNode_shape {s s2 : Store} {k : String} {spec : PyVal}
    (h : linkNode s k spec = .ok s2) :
    storeKeys s2 = storeKeys s ∧
    (∀ m, (lookupKey s2 m).map Node.type = (lookupKey s m).map Node.type) ∧
    (∀ m, (lookupKey s2 m).map Node.value = (lookupKey s m).map Node.value) ∧
    (∀ m, m ≠ k →
      (lookupKey s2 m).map Node.children = (lookupKey s m).map Node.children) ∧
    (∀ nd, lookupKey s k = some nd →
      (nd.type = PyVal.str "leaf" →
        (lookupKey s2 k).map Node.children = (lookupKey s k).map Node.children) ∧
      (¬ nd.type = PyVal.str "leaf" →
        (lookupKey s2 k).map Node.children =
          (lookupKey s k).map (fun nd2 => nd2.children ++ strNames (declaredKids spec)))) := by
  cases hlk : lookupKey s k with
  | none =>
    simp only [linkNode, hlk] at h
    exact Except.noConfusion h
  | some nd =>
    by_cases hleaf : nd.type = PyVal.str "leaf"
    · have hl : nd.is_leaf = true := by simp [Node.is_leaf, hleaf]
      simp only [linkNode, hlk, hl, if_true] at h
      injection h with h
      subst h
      refine ⟨rfl, fun _ => rfl, fun _ => rfl, fun _ _ => rfl, ?_⟩
      intro nd2 hnd2
      injection hnd2 with hnd2
      subst hnd2
      exact ⟨fun _ => by rw [hlk], fun hh => absurd hleaf hh⟩
    · have hl : nd.is_leaf = false := by simp [Node.is_leaf, hleaf]
      cases spec with
      | dict fields =>
        cases hcv : (lookupKey fields "children").getD (.list []) with
        | list cs =>
          simp only [linkNode, hlk, hl, Bool.false_eq_true, if_false, hcv] at h
          obtain ⟨hkeys, hty, hval, hchne, hchp⟩ := linkOne_shape k cs s s2 h
          refine ⟨hkeys, hty, hval, hchne, ?_⟩
          intro nd2 hnd2
          injection hnd2 with hnd2
          subst hnd2
          refine ⟨fun hh => absurd hh hleaf, fun _ => ?_⟩
          have hdk : declaredKids (.dict fields) = cs := by
            simp [declaredKids, hcv]
          rw [hchp, hlk, hdk]
        | none => simp only [linkNode, hlk, hl, Bool.false_eq_true, if_false, hcv] at h; exact Except.noConfusion h
        | int a => simp only [linkNode, hlk, hl, Bool.false_eq_true, if_false, hcv] at h; exact Except.noConfusion h
        | str a => simp only [linkNode, hlk, hl, Bool.false_eq_true, if_false, hcv] at h; exact Except.noConfusion h
        | dict a => simp only [linkNode, hlk, hl, Bool.false_eq_true, if_false, hcv] at h; exact Except.noConfusion h
      | none => simp only [linkNode, hlk, hl, Bool.false_eq_true, if_false] at h; exact Except.noConfusion h
      | int a => simp only [linkNode, hlk, hl, Bool.false_eq_true, if_false] at h; exact Except.noConfusion h
      | str a => simp only [linkNode, hlk, hl, Bool.false_eq_true, if_false] at h; exact Except.noConfusion h
      | list a => simp only [linkNode, hlk, hl, Bool.false_eq_true, if_false] at h; exact Except.noConfusion h

theorem linkNode_isOk_iff {s : Store} {k : String} {spec : PyVal} :
    isOkE (linkNode s k spec) = true ↔ linkNodeOkP s k spec := by
  cases hlk : lookupKey s k with
  | none =>
    simp only [linkNode, hlk, isOkE]
    constructor
    · intro h; cases h
    · intro h
      obtain ⟨nd, hnd, _⟩ := h
      rw [hlk] at hnd
      cases hnd
  | some nd =>
    by_cases hleaf : nd.type = PyVal.str "leaf"
    · have hl : nd.is_leaf = true := by simp [Node.is_leaf, hleaf]
      simp only [linkNode, hlk, hl, if_true, isOkE]
      constructor
      · intro _
        exact ⟨nd, hlk, Or.inl hleaf⟩
      · intro _; trivial
    · have hl : nd.is_leaf = false := by simp [Node.is_leaf, hleaf]
      cases spec with
      | dict fields =>
        cases hcv : (lookupKey fields "children").getD (.list []) with
        | list cs =>
          simp only [linkNode, hlk, hl, Bool.false_eq_true, if_false, hcv]
          rw [linkOne_isOk_iff]
          constructor
          · intro h
            exact ⟨nd, hlk, Or.inr ⟨hleaf, fields, cs, rfl, hcv, h⟩⟩
          · intro h
            obtain ⟨nd2, hnd2, hc⟩ := h
            rw [hlk] at hnd2
            injection hnd2 with hnd2
            subst hnd2
            rcases hc with hc | ⟨_, fields2, cs2, hsp, hcv2, hall⟩
            · exact absurd hc hleaf
            · injection hsp with hsp
              subst hsp
              rw [hcv] at hcv2
              injection hcv2 with hcv2
              subst hcv2
              exact hall
        | none =>
          simp only [linkNode, hlk, hl, Bool.false_eq_true, if_false, hcv, isOkE]
          constructor
          · intro h; cases h
          · intro h
            obtain ⟨nd2, hnd2, hc⟩ := h
            rw [hlk] at hnd2
            injection hnd2 with hnd2
            subst hnd2
            rcases hc with hc | ⟨_, fields2, cs2, hsp, hcv2, _⟩
            · exact absurd hc hleaf
            · injection hsp with hsp
              subst hsp
              rw [hcv] at hcv2
              cases hcv2
        | int a =>
          simp only [linkNode, hlk, hl, Bool.false_eq_true, if_false, hcv, isOkE]
          constructor
          · intro h; cases h
          · intro h
            obtain ⟨nd2, hnd2, hc⟩ := h
            rw [hlk] at hnd2
            injection hnd2 with hnd2
            subst hnd2
            rcases hc with hc | ⟨_, fields2, cs2, hsp, hcv2, _⟩
            · exact absurd hc hleaf
            · injection hsp with hsp
              subst hsp
              rw [hcv] at hcv2
              cases hcv2
        | str a =>
          simp only [linkNode, hlk, hl, Bool.false_eq_true, if_false, hcv, isOkE]
          constructor
          · intro h; cases h
          · intro h
            obtain ⟨nd2, hnd2, hc⟩ := h
            rw [hlk] at hnd2
            injection hnd2 with hnd2
            subst hnd2
            rcases hc with hc | ⟨_, fields2, cs2, hsp, hcv2, _⟩
            · exact absurd hc hleaf
            · injection hsp with hsp
              subst hsp
              rw [hcv] at hcv2
              cases hcv2
        | dict a =>
          simp only [linkNode, hlk, hl, Bool.false_eq_true, if_false, hcv, isOkE]
          constructor
          · intro h; cases h
          · intro h
            obtain ⟨nd2, hnd2, hc⟩ := h
            rw [hlk] at hnd2
            injection hnd2 with hnd2
            subst hnd2
            rcases hc with hc | ⟨_, fields2, cs2, hsp, hcv2, _⟩
            · exact absurd hc hleaf
            · injection hsp with hsp
              subst hsp
              rw [hcv] at hcv2
              cases hcv2
      | none =>
        simp only [linkNode, hlk, hl, Bool.false_eq_true, if_false, isOkE]
        constructor
        · intro h; cases h
        · intro h
          obtain ⟨nd2, hnd2, hc⟩ := h
          rw [hlk] at hnd2
          injection hnd2 with hnd2
          subst hnd2
          rcases hc with hc | ⟨_, fields2, cs2, hsp, _, _⟩
          · exact absurd hc hleaf
          · cases hsp
      | int a =>
        simp only [linkNode, hlk, hl, Bool.false_eq_true, if_false, isOkE]
        constructor
        · intro h; cases h
        · intro h
          obtain ⟨nd2, hnd2, hc⟩ := h
          rw [hlk] at hnd2
          injection hnd2 with hnd2
          subst hnd2
          rcases hc with hc | ⟨_, fields2, cs2, hsp, _, _⟩
          · exact absurd hc hleaf
          · cases hsp
      | str a =>
        simp only [linkNode, hlk, hl, Bool.false_eq_true, if_false, isOkE]
        constructor
        · intro h; cases h
        · intro h
          obtain ⟨nd2, hnd2, hc⟩ := h
          rw [hlk] at hnd2
          injection hnd2 with hnd2
          subst hnd2
          rcases hc with hc | ⟨_, fields2, cs2, hsp, _, _⟩
          · exact absurd hc hleaf
          · cases hsp
      | list a =>
        simp only [linkNode, hlk, hl, Bool.false_eq_true, if_false, isOkE]
        constructor
        · intro h; cases h
        · intro h
          obtain ⟨nd2, hnd2, hc⟩ := h
          rw [hlk] at hnd2
          injection hnd2 with hnd2
          subst hnd2
          rcases hc with hc | ⟨_, fields2, cs2, hsp, _, _⟩
          · exact absurd hc hleaf
          · cases hsp

theorem linkNodeOkP_congr {s s2 : Store} {k : String} {spec : PyVal}
    (hty : ∀ m, (lookupKey s2 m).map Node.type = (lookupKey s m).map Node.type) :
    linkNodeOkP s2 k spec ↔ linkNodeOkP s k spec := by
  have hiso : ∀ m, (lookupKey s2 m).isSome = (lookupKey s m).isSome :=
    fun m => isSome_of_map_type (hty m)
  constructor
  · intro h
    obtain ⟨nd, hnd, hc⟩ := h
    have h2 := hty k
    rw [hnd] at h2
    cases hlk : lookupKey s k with
    | none => rw [hlk] at h2; cases h2
    | some nd2 =>
      rw [hlk] at h2
      simp only [Option.map] at h2
      injection h2 with h2
      refine ⟨nd2, hlk, ?_⟩
      rw [Eq.symm h2]
      rcases hc with hc | ⟨hc1, fields, cs, h3, h4, h5⟩
      · exact Or.inl hc
      · refine Or.inr ⟨hc1, fields, cs, h3, h4, ?_⟩
        intro c hcm
        obtain ⟨cname, hcn, hb⟩ := h5 c hcm
        exact ⟨cname, hcn, by rw [Eq.symm (hiso cname)]; exact hb⟩
  · intro h
    obtain ⟨nd, hnd, hc⟩ := h
    have h2 := hty k
    rw [hnd] at h2
    cases hlk : lookupKey s2 k with
    | none => rw [hlk] at h2; cases h2
    | some nd2 =>
      rw [hlk] at h2
      simp only [Option.map] at h2
      injection h2 with h2
      refine ⟨nd2, hlk, ?_⟩
      rw [h2]
      rcases hc with hc | ⟨hc1, fields, cs, h3, h4, h5⟩
      · exact Or.inl hc
      · refine Or.inr ⟨hc1, fields, cs, h3, h4, ?_⟩
        intro c hcm
        obtain ⟨cname, hcn, hb⟩ := h5 c hcm
        exact ⟨cname, hcn, by rw [hiso cname]; exact hb⟩

theorem phase2_shape :
    ∀ (l : List (String × PyVal)) (s s2 : Store), (l.map Prod.fst).Nodup →
      phase2 s l = .ok s2 →
      storeKeys s2 = storeKeys s ∧
      (∀ m, (lookupKey s2 m).map Node.type = (lookupKey s m).map Node.type) ∧
      (∀ m, (lookupKey s2 m).map Node.value = (lookupKey s m).map Node.value) ∧
      (∀ m, lookupKey l m = Option.none →
        (lookupKey s2 m).map Node.children = (lookupKey s m).map Node.children) ∧
      (∀ k spec nd, lookupKey l k = some spec → lookupKey s k = some nd →
        (nd.type = PyVal.str "leaf" →
          (lookupKey s2 k).map Node.children = some nd.children) ∧
        (¬ nd.type = PyVal.str "leaf" →
          (lookupKey s2 k).map Node.children =
            some (nd.children ++ strNames (declaredKids spec)))) := by
  intro l
  induction l with
  | nil =>
    intro s s2 _ h
    simp only [phase2] at h
    injection h with h
    subst h
    exact ⟨rfl, fun _ => rfl, fun _ => rfl, fun _ _ => rfl,
      fun k spec nd hs => Option.noConfusion hs⟩
  | cons p rest ih =>
    intro s s2 hnd h
    obtain ⟨k0, spec0⟩ := p
    simp only [List.map_cons, List.nodup_cons] at hnd
    cases hln : linkNode s k0 spec0 with
    | error e =>
      simp only [phase2, hln] at h
      exact Except.noConfusion h
    | ok s1 =>
      simp only [phase2, hln] at h
      obtain ⟨hkeys1, hty1, hval1, hchne1, hchk1⟩ := linkNode_shape hln
      obtain ⟨hkeys2, hty2, hval2, hchnone2, hchk2⟩ := ih s1 s2 hnd.2 h
      refine ⟨hkeys2.trans hkeys1, fun m => (hty2 m).trans (hty1 m),
        fun m => (hval2 m).trans (hval1 m), ?_, ?_⟩
      · intro m hm
        by_cases hk : k0 = m
        · rw [lookupKey, if_pos hk] at hm
          cases hm
        · rw [lookupKey, if_neg hk] at hm
          rw [hchnone2 m hm, hchne1 m (fun hh => hk hh.symm)]
      · intro k spec nd hks hsd
        by_cases hk : k0 = k
        · subst hk
          rw [lookupKey, if_pos rfl] at hks
          injection hks with hks
          subst hks
          have hrest : lookupKey rest k0 = Option.none :=
            (lookupKey_none_iff rest k0).mpr hnd.1
          have hpres2 := hchnone2 k0 hrest
          obtain ⟨hc1, hc2⟩ := hchk1 nd hsd
          refine ⟨fun hh => ?_, fun hh => ?_⟩
          · rw [hpres2, hc1 hh, hsd]
            rfl
          · rw [hpres2, hc2 hh, hsd]
            rfl
        · rw [lookupKey, if_neg hk] at hks
          have hty := hty1 k
          rw [hsd] at hty
          cases hlk1 : lookupKey s1 k with
          | none => rw [hlk1] at hty; cases hty
          | some nd1 =>
            rw [hlk1] at hty
            simp only [Option.map] at hty
            injection hty with hty
            have hch := hchne1 k (fun hh => hk hh.symm)
            rw [hlk1, hsd] at hch
            simp only [Option.map] at hch
            injection hch with hch
            obtain ⟨hc1, hc2⟩ := hchk2 k spec nd1 hks hlk1
            refine ⟨fun hh => ?_, fun hh => ?_⟩
            · rw [hc1 (by rw [hty]; exact hh), hch]
            · rw [hc2 (by rw [hty]; exact hh), hch]

theorem phase2_isOk_iff :
    ∀ (l : List (String × PyVal)) (s : Store),
      isOkE (phase2 s l) = true ↔ ∀ p ∈ l, linkNodeOkP s p.1 p.2 := by
  intro l
  induction l with
  | nil =>
    intro s
    simp [phase2, isOkE]
  | cons p rest ih =>
    intro s
    obtain ⟨k0, spec0⟩ := p
    cases hln : linkNode s k0 spec0 with
    | error e =>
      simp only [phase2, hln, isOkE]
      constructor
      · intro h; cases h
      · intro h
        have hok := (@linkNode_isOk_iff s k0 spec0).mpr
          (h (k0, spec0) (by simp))
        rw [hln] at hok
        cases hok
    | ok s1 =>
      simp only [phase2, hln]
      rw [ih s1]
      have hcong : ∀ (k : String) (spec : PyVal),
          linkNodeOkP s1 k spec ↔ linkNodeOkP s k spec :=
        fun k spec => linkNodeOkP_congr (linkNode_shape hln).2.1
      constructor
      · intro h p hp
        rcases List.mem_cons.mp hp with hp | hp
        · rw [hp]
          exact (linkNode_isOk_iff).mp (by rw [hln]; rfl)
        · exact (hcong p.1 p.2).mp (h p hp)
      · intro h p hp
        exact (hcong p.1 p.2).mpr (h p (by simp [hp]))

/-- Condition under which the validation sweep passes one node object. -/
def validCheckP (nd : Node) : Prop :=
  ¬(nd.type = PyVal.str "leaf" ∧ nd.children ≠ []) ∧
  ¬((nd.type = PyVal.str "max" ∨ nd.type = PyVal.str "min") ∧ nd.children = [])

theorem validateNodes_isOk_iff :
    ∀ s : Store, isOkE (validateNodes s) = true ↔ ∀ p ∈ s, validCheckP p.2 := by
  intro s
  induction s with
  | nil => simp [validateNodes, isOkE]
  | cons p rest ih =>
    obtain ⟨k, n⟩ := p
    by_cases h1 : n.type = PyVal.str "leaf" ∧ n.children ≠ []
    · simp only [validateNodes, if_pos h1, isOkE]
      constructor
      · intro h; cases h
      · intro h
        exact absurd h1 (h (k, n) (by simp)).1
    · by_cases h2 : (n.type = PyVal.str "max" ∨ n.type = PyVal.str "min") ∧
          n.children = []
      · simp only [validateNodes, if_neg h1, if_pos h2, isOkE]
        constructor
        · intro h; cases h
        · intro h
          exact absurd h2 (h (k, n) (by simp)).2
      · simp only [validateNodes, if_neg h1, if_neg h2]
        rw [ih]
        constructor
        · intro h p hp
          rcases List.mem_cons.mp hp with hp | hp
          · rw [hp]
            exact ⟨h1, h2⟩
          · exact h p hp
        · intro h p hp
          exact h p (by simp [hp])

theorem mem_iff_lookup {α : Type} :
    ∀ (l : List (String × α)), (l.map Prod.fst).Nodup →
      ∀ (k : String) (v : α), ((k, v) ∈ l ↔ lookupKey l k = some v) := by
  intro l
  induction l with
  | nil => intro _ k v; simp [lookupKey]
  | cons p rest ih =>
    intro hnd k v
    obtain ⟨k0, v0⟩ := p
    simp only [List.map_cons, List.nodup_cons] at hnd
    by_cases hk : k0 = k
    · subst hk
      rw [lookupKey, if_pos rfl]
      constructor
      · intro h
        rcases List.mem_cons.mp h with h | h
        · injection h with h1 h2
          rw [h2]
        · exact absurd (List.mem_map_of_mem Prod.fst h) hnd.1
      · intro h
        injection h with h
        subst h
        simp
    · rw [lookupKey, if_neg hk]
      constructor
      · intro h
        rcases List.mem_cons.mp h with h | h
        · injection h with h1 h2
          exact absurd h1.symm hk
        · exact (ih hnd.2 k v).mp h
      · intro h
        exact List.mem_cons.mpr (Or.inr ((ih hnd.2 k v).mpr h))

theorem validateNodes_isOk_iff_lookup (s : Store) (hnd : (storeKeys s).Nodup) :
    isOkE (validateNodes s) = true ↔
      ∀ k nd, lookupKey s k = some nd → validCheckP nd := by
  rw [validateNodes_isOk_iff]
  constructor
  · intro h k nd hlk
    exact h (k, nd) (lookupKey_some_mem hlk)
  · intro h p hp
    exact h p.1 p.2 ((mem_iff_lookup s hnd p.1 p.2).mp (by
      rw [show (p.1, p.2) = p from rfl]
      exact hp))

/-- Description with the given root value and node mapping. -/
def mkDescG (r : PyVal) (l : List (String × PyVal)) : PyVal :=
  .dict [("root", r), ("nodes", .dict l)]

/-- Tail of the parser once the fixed top-level shape of mkDescG has been
taken apart. -/
def parseTail (r : PyVal) (l : List (String × PyVal)) :
    Except PyErr (String × Store) :=
  match phase1 l with
  | .error e => .error e
  | .ok s0 =>
    match phase2 s0 l with
    | .error e => .error e
    | .ok s =>
      match r with
      | .list _ => .error (.typeError "unhashable root name")
      | .dict _ => .error (.typeError "unhashable root name")
      | .str rstr =>
        if (lookupKey s rstr).isSome then
          match validateNodes s with
          | .error e => .error e
          | .ok _ => .ok (rstr, s)
        else
          .error (.jsonTreeParserError s!"Root \x27{rstr}\x27 not found among nodes.")
      | other =>
        .error (.jsonTreeParserError s!"Root \x27{pyStr other}\x27 not found among nodes.")

theorem parse_mkDescG (r : PyVal) (l : List (String × PyVal)) :
    parse_tree_from_dict (mkDescG r l) = parseTail r l := by
  have hroot : lookupKey [("root", r), ("nodes", PyVal.dict l)] "root" = some r := by
    rw [lookupKey, if_pos rfl]
  have hnodes : lookupKey [("root", r), ("nodes", PyVal.dict l)] "nodes" =
      some (PyVal.dict l) := by
    rw [lookupKey, if_neg (by decide), lookupKey, if_pos rfl]
  simp only [parse_tree_from_dict, mkDescG, parseTail, hroot, hnodes]

theorem parse_perm_core (r : PyVal) (l l2 : List (String × PyVal))
    (hnd : (l.map Prod.fst).Nodup) (hperm : l.Perm l2) :
    isOkE (parse_tree_from_dict (mkDescG r l)) =
      isOkE (parse_tree_from_dict (mkDescG r l2)) ∧
    ∀ rn rn2 s s2, parse_tree_from_dict (mkDescG r l) = .ok (rn, s) →
      parse_tree_from_dict (mkDescG r l2) = .ok (rn2, s2) →
      rn = rn2 ∧ evalEquiv s s2 := by
  have hnd2 : (l2.map Prod.fst).Nodup := ((hperm.map Prod.fst).nodup_iff).mp hnd
  rw [parse_mkDescG, parse_mkDescG]
  cases hp1 : phase1 l with
  | error e1 =>
    have hargs : ¬ isOkE (phase1 l2) = true := by
      rw [phase1_isOk_iff]
      intro hall
      have h2 : isOkE (phase1 l) = true :=
        (phase1_isOk_iff l).mpr (fun p hp => hall p (hperm.mem_iff.mp hp))
      rw [hp1] at h2
      cases h2
    cases hp2 : phase1 l2 with
    | ok t0 => exact absurd (by rw [hp2]; rfl) hargs
    | error e2 =>
      constructor
      · simp only [parseTail, hp1, hp2]
        rfl
      · intro rn rn2 s s2 ho1 ho2
        simp only [parseTail, hp1] at ho1
        exact Except.noConfusion ho1
  | ok s0 =>
    have hok1 : isOkE (phase1 l) = true := by rw [hp1]; rfl
    have hok2 : isOkE (phase1 l2) = true :=
      (phase1_isOk_iff l2).mpr (fun p hp =>
        (phase1_isOk_iff l).mp hok1 p (hperm.mem_iff.mpr hp))
    cases hp2 : phase1 l2 with
    | error e2 => rw [hp2] at hok2; cases hok2
    | ok t0 =>
      have hkey : ∀ m, lookupKey s0 m = lookupKey t0 m := by
        intro m
        cases hlm : lookupKey l m with
        | none =>
          have hlm2 : lookupKey l2 m = Option.none := by
            rw [Eq.symm (lookupKey_perm hperm hnd m)]; exact hlm
          rw [(phase1_lookup l s0 hp1 m).2 hlm, (phase1_lookup l2 t0 hp2 m).2 hlm2]
        | some spec =>
          have hlm2 : lookupKey l2 m = some spec := by
            rw [Eq.symm (lookupKey_perm hperm hnd m)]; exact hlm
          obtain ⟨nd1, hmk1, hl1⟩ := (phase1_lookup l s0 hp1 m).1 spec hlm
          obtain ⟨nd2, hmk2, hl2⟩ := (phase1_lookup l2 t0 hp2 m).1 spec hlm2
          rw [hmk1] at hmk2
          injection hmk2 with hmk2
          rw [hl1, hl2, hmk2]
      have htyST : ∀ m,
          (lookupKey t0 m).map Node.type = (lookupKey s0 m).map Node.type :=
        fun m => by rw [hkey m]
      cases hq1 : phase2 s0 l with
      | error e =>
        have hargs : ¬ isOkE (phase2 t0 l2) = true := by
          rw [phase2_isOk_iff]
          intro hall
          have h2 : isOkE (phase2 s0 l) = true := by
            rw [phase2_isOk_iff]
            intro p hp
            exact (linkNodeOkP_congr htyST).mp (hall p (hperm.mem_iff.mp hp))
          rw [hq1] at h2
          cases h2
        cases hq2 : phase2 t0 l2 with
        | ok tF => exact absurd (by rw [hq2]; rfl) hargs
        | error e2 =>
          constructor
          · simp only [parseTail, hp1, hp2, hq1, hq2]
            rfl
          · intro rn rn2 s s2 ho1 ho2
            simp only [parseTail, hp1, hq1] at ho1
            exact Except.noConfusion ho1
      | ok sF =>
        have hok3 : isOkE (phase2 s0 l) = true := by rw [hq1]; rfl
        have hok4 : isOkE (phase2 t0 l2) = true := by
          rw [phase2_isOk_iff]
          intro p hp
          exact (linkNodeOkP_congr htyST).mpr
            ((phase2_isOk_iff l s0).mp hok3 p (hperm.mem_iff.mpr hp))
        cases hq2 : phase2 t0 l2 with
        | error e2 => rw [hq2] at hok4; cases hok4
        | ok tF =>
          obtain ⟨sh1keys, sh1ty, sh1val, sh1chN, sh1chS⟩ :=
            phase2_shape l s0 sF hnd hq1
          obtain ⟨sh2keys, sh2ty, sh2val, sh2chN, sh2chS⟩ :=
            phase2_shape l2 t0 tF hnd2 hq2
          have hequiv : evalEquiv sF tF := by
            intro m
            refine ⟨?_, ?_, ?_⟩
            · rw [sh1ty m, sh2ty m, hkey m]
            · cases hlm : lookupKey l m with
              | none =>
                have hlm2 : lookupKey l2 m = Option.none := by
                  rw [Eq.symm (lookupKey_perm hperm hnd m)]; exact hlm
                rw [sh1chN m hlm, sh2chN m hlm2, hkey m]
              | some spec =>
                have hlm2 : lookupKey l2 m = some spec := by
                  rw [Eq.symm (lookupKey_perm hperm hnd m)]; exact hlm
                obtain ⟨nd, hmk, hs0m⟩ := (phase1_lookup l s0 hp1 m).1 spec hlm
                have ht0m : lookupKey t0 m = some nd := by
                  rw [Eq.symm (hkey m)]; exact hs0m
                obtain ⟨hc1a, hc1b⟩ := sh1chS m spec nd hlm hs0m
                obtain ⟨hc2a, hc2b⟩ := sh2chS m spec nd hlm2 ht0m
                by_cases hleaf : nd.type = PyVal.str "leaf"
                · rw [hc1a hleaf, hc2a hleaf]
                · rw [hc1b hleaf, hc2b hleaf]
            · rw [sh1val m, sh2val m, hkey m]
          have hndsF : (storeKeys sF).Nodup := by
            rw [sh1keys, phase1_keys l s0 hp1]; exact hnd
          have hndtF : (storeKeys tF).Nodup := by
            rw [sh2keys, phase1_keys l2 t0 hp2]; exact hnd2
          cases r with
          | str rstr =>
            have hiso : (lookupKey sF rstr).isSome = (lookupKey tF rstr).isSome :=
              isSome_of_map_type (hequiv rstr).1
            by_cases hroot : (lookupKey sF rstr).isSome = true
            · have hroot2 : (lookupKey tF rstr).isSome = true := by
                rw [Eq.symm hiso]; exact hroot
              have hvcheck : (∀ k nd, lookupKey sF k = some nd → validCheckP nd) ↔
                  (∀ k nd, lookupKey tF k = some nd → validCheckP nd) := by
                constructor
                · intro h k nd hlk
                  obtain ⟨hty, hch, _⟩ := hequiv k
                  rw [hlk] at hty hch
                  cases hlkS : lookupKey sF k with
                  | none => rw [hlkS] at hty; cases hty
                  | some ndS =>
                    rw [hlkS] at hty hch
                    simp only [Option.map] at hty hch
                    injection hty with hty
                    injection hch with hch
                    obtain ⟨t1, t2⟩ := h k ndS hlkS
                    rw [hty, hch] at t1 t2
                    exact ⟨t1, t2⟩
                · intro h k nd hlk
                  obtain ⟨hty, hch, _⟩ := hequiv k
                  rw [hlk] at hty hch
                  cases hlkT : lookupKey tF k with
                  | none => rw [hlkT] at hty; cases hty
                  | some ndT =>
                    rw [hlkT] at hty hch
                    simp only [Option.map] at hty hch
                    injection hty with hty
                    injection hch with hch
                    obtain ⟨t1, t2⟩ := h k ndT hlkT
                    rw [Eq.symm hty, Eq.symm hch] at t1 t2
                    exact ⟨t1, t2⟩
              have hv1iff := validateNodes_isOk_iff_lookup sF hndsF
              have hv2iff := validateNodes_isOk_iff_lookup tF hndtF
              cases hv1 : validateNodes sF with
              | error ev1 =>
                have hvb : ¬ isOkE (validateNodes tF) = true := by
                  intro hh
                  have h2 : isOkE (validateNodes sF) = true :=
                    hv1iff.mpr (hvcheck.mpr (hv2iff.mp hh))
                  rw [hv1] at h2
                  cases h2
                cases hv2 : validateNodes tF with
                | ok u2 => exact absurd (by rw [hv2]; rfl) hvb
                | error ev2 =>
                  constructor
                  · simp only [parseTail, hp1, hp2, hq1, hq2, if_pos hroot,
                      if_pos hroot2, hv1, hv2]
                    rfl
                  · intro rn rn2 s s2 ho1 ho2
                    simp only [parseTail, hp1, hq1, if_pos hroot, hv1] at ho1
                    exact Except.noConfusion ho1
              | ok u1 =>
                have hvb : isOkE (validateNodes tF) = true :=
                  hv2iff.mpr (hvcheck.mp (hv1iff.mp (by rw [hv1]; rfl)))
                cases hv2 : validateNodes tF with
                | error ev2 => rw [hv2] at hvb; cases hvb
                | ok u2 =>
                  constructor
                  · simp only [parseTail, hp1, hp2, hq1, hq2, if_pos hroot,
                      if_pos hroot2, hv1, hv2]
                    rfl
                  · intro rn rn2 s s2 ho1 ho2
                    simp only [parseTail, hp1, hq1, if_pos hroot, hv1] at ho1
                    simp only [parseTail, hp2, hq2, if_pos hroot2, hv2] at ho2
                    injection ho1 with ho1
                    injection ho2 with ho2
                    injection ho1 with ho1a ho1b
                    injection ho2 with ho2a ho2b
                    subst ho1a
                    subst ho1b
                    subst ho2a
                    subst ho2b
                    exact ⟨rfl, hequiv⟩
            · have hroot2 : ¬ (lookupKey tF rstr).isSome = true := by
                rw [Eq.symm hiso]; exact hroot
              constructor
              · simp only [parseTail, hp1, hp2, hq1, hq2, if_neg hroot,
                  if_neg hroot2]
              · intro rn rn2 s s2 ho1 ho2
                simp only [parseTail, hp1, hq1, if_neg hroot] at ho1
                exact Except.noConfusion ho1
          | list a =>
            constructor
            · simp only [parseTail, hp1, hp2, hq1, hq2]
            · intro rn rn2 s s2 ho1 ho2
              simp only [parseTail, hp1, hq1] at ho1
              exact Except.noConfusion ho1
          | dict a =>
            constructor
            · simp only [parseTail, hp1, hp2, hq1, hq2]
            · intro rn rn2 s s2 ho1 ho2
              simp only [parseTail, hp1, hq1] at ho1
              exact Except.noConfusion ho1
          | none =>
            constructor
            · simp only [parseTail, hp1, hp2, hq1, hq2]
            · intro rn rn2 s s2 ho1 ho2
              simp only [parseTail, hp1, hq1] at ho1
              exact Except.noConfusion ho1
          | int a =>
            constructor
            · simp only [parseTail, hp1, hp2, hq1, hq2]
            · intro rn rn2 s s2 ho1 ho2
              simp only [parseTail, hp1, hq1] at ho1
              exact Except.noConfusion ho1

/-- Claim C9: permuting the iteration order of the node mapping changes
neither whether construction succeeds nor any evaluated value: evaluation
runs on the two resulting stores return the same results at every fuel and
leave identical values at every name. -/
theorem buildOrderIndependent (r : PyVal) (l l2 : List (String × PyVal))
    (hnd : (l.map Prod.fst).Nodup) (hperm : l.Perm l2) :
    isOkE (parse_tree_from_dict (mkDescG r l)) =
      isOkE (parse_tree_from_dict (mkDescG r l2)) ∧
    ∀ rn rn2 s s2, parse_tree_from_dict (mkDescG r l) = .ok (rn, s) →
      parse_tree_from_dict (mkDescG r l2) = .ok (rn2, s2) →
      rn = rn2 ∧
      ∀ fuel (s3 t3 : Store) (v v2 : Option PyVal),
        miniMax fuel s rn = (s3, v) → miniMax fuel s2 rn = (t3, v2) →
        v = v2 ∧
        ∀ m, (lookupKey s3 m).map Node.value = (lookupKey t3 m).map Node.value := by
  have core := parse_perm_core r l l2 hnd hperm
  refine ⟨core.1, ?_⟩
  intro rn rn2 s s2 ho1 ho2
  obtain ⟨hrn, hequiv⟩ := core.2 rn rn2 s s2 ho1 ho2
  refine ⟨hrn, ?_⟩
  intro fuel s3 t3 v v2 h1 h2
  obtain ⟨hv, he⟩ := miniMax_equiv fuel s s2 rn s3 t3 v v2 hequiv h1 h2
  exact ⟨hv, fun m => (he m).2.2⟩

/-- Node mapping of scenario 1, in declaration order. -/
def scenario1Nodes : List (String × PyVal) :=
  [("A", .dict [("type", .str "max"), ("children", .list [.str "B", .str "C"])]),
   ("B", .dict [("type", .str "min"), ("children", .list [.str "D", .str "E"])]),
   ("C", .dict [("type", .str "leaf"), ("value", .int 3)]),
   ("D", .dict [("type", .str "leaf"), ("value", .int 5)]),
   ("E", .dict [("type", .str "leaf"), ("value", .int (-2))])]

/-- Same node mapping with the first two entries swapped. -/
def scenario1NodesSwapped : List (String × PyVal) :=
  [("B", .dict [("type", .str "min"), ("children", .list [.str "D", .str "E"])]),
   ("A", .dict [("type", .str "max"), ("children", .list [.str "B", .str "C"])]),
   ("C", .dict [("type", .str "leaf"), ("value", .int 3)]),
   ("D", .dict [("type", .str "leaf"), ("value", .int 5)]),
   ("E", .dict [("type", .str "leaf"), ("value", .int (-2))])]

/-- Witness for claim C9 on scenario 1 and a transposed node mapping. -/
theorem buildOrderIndependent_witness :
    (scenario1Nodes.map Prod.fst).Nodup ∧
    scenario1Nodes.Perm scenario1NodesSwapped ∧
    (isOkE (parse_tree_from_dict (mkDescG (.str "A") scenario1Nodes)) =
      isOkE (parse_tree_from_dict (mkDescG (.str "A") scenario1NodesSwapped)) ∧
    ∀ rn rn2 s s2,
      parse_tree_from_dict (mkDescG (.str "A") scenario1Nodes) = .ok (rn, s) →
      parse_tree_from_dict (mkDescG (.str "A") scenario1NodesSwapped) =
        .ok (rn2, s2) →
      rn = rn2 ∧
      ∀ fuel (s3 t3 : Store) (v v2 : Option PyVal),
        miniMax fuel s rn = (s3, v) → miniMax fuel s2 rn = (t3, v2) →
        v = v2 ∧
        ∀ m, (lookupKey s3 m).map Node.value =
          (lookupKey t3 m).map Node.value) := by
  refine ⟨by decide, ?_, ?_⟩
  · exact List.Perm.swap _ _ _
  · exact buildOrderIndependent (.str "A") scenario1Nodes scenario1NodesSwapped
      (by decide) (List.Perm.swap _ _ _)
